import Mathlib

/-!
# gotab: tab completion for the `go` command

A shallow embedding of `main.go`, `default.go` and `doc.go`.

* A Go `string` is a sequence of bytes: `GoString := List Nat`, every element of a real
  string being `< 256`.  Theorems quantify over all lists, concrete inputs are byte lists.
* A Go `int` is a 64-bit two's complement integer: `Int` with `wrapInt` after every
  subtraction that the source performs on the cursor.
* `fmt.Println` appends one line to standard output: functions that print return the list
  of lines they printed, in order.
* The package-level variables `args`, `matchCase`, `unexported`, `showCmd` of `doc.go` are
  threaded explicitly as a `Globals` record.
-/

namespace Gotab

/-- A Go string: its bytes. -/
abbrev GoString := List Nat

/-- UTF-8 encoding of one code point, as the Go compiler lays out a string literal. -/
def encodeRune (r : Nat) : List Nat :=
  if r < 0x80 then [r]
  else if r < 0x800 then [0xC0 + r / 64, 0x80 + r % 64]
  else if r < 0x10000 then [0xE0 + r / 4096, 0x80 + r / 64 % 64, 0x80 + r % 64]
  else [0xF0 + r / 262144, 0x80 + r / 4096 % 64, 0x80 + r / 64 % 64, 0x80 + r % 64]

/-- The bytes of a string literal. -/
def str (s : String) : GoString :=
  s.toList.flatMap (fun c => encodeRune c.toNat)

/-- Reduction of an unbounded integer to the range of a 64-bit Go `int`. -/
def wrapInt (x : Int) : Int :=
  (x + 9223372036854775808) % 18446744073709551616 - 9223372036854775808

/-! ## main.go: the tokenizer -/

/-- The record `type tokenizer struct { line string; point int; end bool }`. -/
structure tokenizer where
  line : GoString
  point : Int
  «end» : Bool
deriving DecidableEq, Repr

/-- The loop `for i = 0; i < len(line) && line[i] == ' '; i++ {}`: the final `i`. -/
def spaceRun : GoString → Nat
  | [] => 0
  | c :: rest => if c = 32 then spaceRun rest + 1 else 0

/-- The loop `for i = 0; i < len(line) && line[i] != ' '; i++ {}`: the final `i`. -/
def tokenRun : GoString → Nat
  | [] => 0
  | c :: rest => if c ≠ 32 then tokenRun rest + 1 else 0

/-- The method `func (t *tokenizer) Next() (tok string, old bool)`, returning the token, the
flag `old` and the tokenizer after the call. -/
def tokenizer.Next (t : tokenizer) : GoString × Bool × tokenizer :=
  -- Strip any white spaces
  let i := spaceRun t.line
  let line1 := t.line.drop i
  let point1 := wrapInt (t.point - i)
  -- Find the next token
  let j := tokenRun line1
  let pt := point1
  let tok := line1.take j
  let line2 := line1.drop j
  let point2 := wrapInt (point1 - j)
  -- Truncate token if pointer is inside token
  let old := decide (pt > (tok.length : Int))
  if pt ≤ (tok.length : Int) then
    let pt1 := if pt < 0 then 0 else pt
    (tok.take pt1.toNat, old, ⟨[], 0, t.end⟩)
  else
    (tok, old, ⟨line2, point2, t.end⟩)

/-- Calling `Next` until it reports `old = false`, as `handleDefault` and `handleDoc` do:
the tokens returned with `old = true`, in order, and the final token.  The first argument
bounds the number of calls; `none` means the bound was reached first. -/
def nextUntilLive : Nat → tokenizer → Option (List GoString × GoString)
  | 0, _ => none
  | fuel + 1, t =>
    match t.Next with
    | (tok, true, t1) => (nextUntilLive fuel t1).map (fun r => (tok :: r.1, r.2))
    | (tok, false, _) => some ([], tok)

/-! ## Library functions of `strings`, `strconv`, `path`, `path/filepath`, `unicode/utf8` -/

/-- The function `strings.Index`: the index of the first instance of `substr` in `s`, or
`-1` when there is none. -/
def Index : GoString → GoString → Int
  | [], substr => if substr.isPrefixOf [] then 0 else -1
  | c :: rest, substr =>
    if substr.isPrefixOf (c :: rest) then 0
    else
      let r := Index rest substr
      if r < 0 then -1 else r + 1

/-- The function `strings.LastIndex`: the index of the last instance of `substr` in `s`, or
`-1` when there is none. -/
def LastIndex : GoString → GoString → Int
  | [], substr => if substr.isPrefixOf [] then 0 else -1
  | c :: rest, substr =>
    let r := LastIndex rest substr
    if 0 ≤ r then r + 1
    else if substr.isPrefixOf (c :: rest) then 0 else -1

/-- The function `strings.HasSuffix`. -/
def HasSuffix (s suffix : GoString) : Bool :=
  suffix.isSuffixOf s

/-- The function `strings.Split(s, sep)` for a one-byte separator: the fields between
consecutive separators, empty ones included.  The result is never empty. -/
def Split (s : GoString) (sep : Nat) : List GoString :=
  match s with
  | [] => [[]]
  | c :: rest =>
    if c = sep then [] :: Split rest sep
    else
      match Split rest sep with
      | [] => [[c]]
      | f :: fs => (c :: f) :: fs

/-- The digit loop of `strconv.Atoi`: `n = n*10 + int(ch - '0')`, failing on a byte that is
not a decimal digit. -/
def atoiDigits : GoString → Nat → Option Nat
  | [], n => some n
  | ch :: rest, n =>
    if 48 ≤ ch ∧ ch ≤ 57 then atoiDigits rest (n * 10 + (ch - 48)) else none

/-- The function `strconv.Atoi` for a 64-bit `int`: an optional sign, then one or more
decimal digits; `none` stands for a non-nil error (syntax or range). -/
def Atoi (s : GoString) : Option Int :=
  match s with
  | [] => none
  | c :: rest =>
    let neg := decide (c = 45)
    let body := if c = 45 ∨ c = 43 then rest else s
    if body = [] then none
    else
      match atoiDigits body 0 with
      | none => none
      | some n =>
        let v : Int := if neg then -(n : Int) else (n : Int)
        if v < -9223372036854775808 ∨ 9223372036854775807 < v then none else some v

/-- The constant `utf8.RuneError`, U+FFFD. -/
def RuneError : Nat := 0xFFFD

/-- The function `utf8.DecodeRuneInString`: the first rune of `s` and its width in bytes;
`(RuneError, 0)` for the empty string and `(RuneError, 1)` for an invalid encoding. -/
def DecodeRuneInString (s : GoString) : Nat × Nat :=
  match s with
  | [] => (RuneError, 0)
  | s0 :: t =>
    if s0 < 0x80 then (s0, 1)
    else if s0 < 0xC2 ∨ 0xF4 < s0 then (RuneError, 1)
    else
      -- the accept range of the second byte
      let lo := if s0 = 0xE0 then 0xA0 else if s0 = 0xF0 then 0x90 else 0x80
      let hi := if s0 = 0xED then 0x9F else if s0 = 0xF4 then 0x8F else 0xBF
      match t with
      | [] => (RuneError, 1)
      | s1 :: t1 =>
        if s0 < 0xE0 then
          if s1 < lo ∨ hi < s1 then (RuneError, 1)
          else (s0 % 32 * 64 + s1 % 64, 2)
        else
          match t1 with
          | [] => (RuneError, 1)
          | s2 :: t2 =>
            if s0 < 0xF0 then
              if s1 < lo ∨ hi < s1 then (RuneError, 1)
              else if s2 < 0x80 ∨ 0xBF < s2 then (RuneError, 1)
              else (s0 % 16 * 4096 + s1 % 64 * 64 + s2 % 64, 3)
            else
              match t2 with
              | [] => (RuneError, 1)
              | s3 :: _ =>
                if s1 < lo ∨ hi < s1 then (RuneError, 1)
                else if s2 < 0x80 ∨ 0xBF < s2 then (RuneError, 1)
                else if s3 < 0x80 ∨ 0xBF < s3 then (RuneError, 1)
                else (s0 % 8 * 262144 + s1 % 64 * 4096 + s2 % 64 * 64 + s3 % 64, 4)

/-- The runes that `for _, u := range s` visits: at every position reached the rune
decoded there, the next position being `width` bytes further (one byte after an invalid
encoding).  The second argument counts the bytes still to skip. -/
def rangeRunes : GoString → Nat → List Nat
  | [], _ => []
  | b :: rest, 0 =>
    (DecodeRuneInString (b :: rest)).1 :: rangeRunes rest ((DecodeRuneInString (b :: rest)).2 - 1)
  | _ :: rest, skip + 1 => rangeRunes rest skip

/-- The function `path.Split`: the text up to and including the final slash, and the rest. -/
def pathSplit (p : GoString) : GoString × GoString :=
  let i := LastIndex p [47]
  (p.take (i + 1).toNat, p.drop (i + 1).toNat)

/-- The function `filepath.SplitList` on Unix: the colon-separated entries, none for the
empty string. -/
def SplitList (p : GoString) : List GoString :=
  if p = [] then [] else Split p 58

/-- The text `strings.Join(elem, "/")`. -/
def joinSlash : List GoString → GoString
  | [] => []
  | [e] => e
  | e :: es => e ++ 47 :: joinSlash es

/-! ## The environment of the program -/

/-- The tables of package `unicode` that the program consults.  `SimpleFold` returns a
`rune`, a 32-bit integer. -/
structure Unicode where
  IsUpper : Nat → Bool
  IsLower : Nat → Bool
  SimpleFold : Nat → Nat
  SimpleFold_lt : ∀ r, SimpleFold r < 2147483648

/-- What the program reads of an `os.FileInfo`: `Name()`, `IsDir()` and whether
`Mode()&os.ModeSymlink > 0`. -/
structure FileInfo where
  Name : GoString
  IsDir : Bool
  IsSymlink : Bool
deriving DecidableEq, Repr

/-- The fields of `build.Package` that `parsePackage` reads. -/
structure BuildPackage where
  Name : GoString
  Dir : GoString
  ImportPath : GoString
  GoFiles : List GoString
  CgoFiles : List GoString
deriving DecidableEq, Repr

/-- A `doc.Value`: the names one declaration introduces. -/
structure DocValue where
  Names : List GoString
deriving DecidableEq, Repr

/-- A `doc.Func`. -/
structure DocFunc where
  Name : GoString
deriving DecidableEq, Repr

/-- A `doc.Type` with its associated constants, variables, functions and methods. -/
structure DocType where
  Name : GoString
  Consts : List DocValue
  Vars : List DocValue
  Funcs : List DocFunc
  Methods : List DocFunc
deriving DecidableEq, Repr

/-- A `doc.Package`. -/
structure DocPackage where
  Consts : List DocValue
  Vars : List DocValue
  Funcs : List DocFunc
  Types : List DocType
deriving DecidableEq, Repr

/-- A handle on an `*ast.Package`. -/
abbrev AstPackage := Nat

/-- Everything outside the program that one run depends on: the environment variables, the
Go workspace settings, the file system and the library functions whose results depend on
them.  Every read error is the empty result, as the program discards the error values. -/
structure Env where
  COMP_LINE : GoString
  COMP_POINT : GoString
  GOPATH : GoString
  GOROOT : GoString
  /-- The result of `os.Getwd`, `none` on error. -/
  Getwd : Option GoString
  /-- The result of `ioutil.ReadDir`. -/
  ReadDir : GoString → List FileInfo
  /-- The result of `os.Stat`, `none` on error. -/
  Stat : GoString → Option FileInfo
  /-- The function `path.Clean`. -/
  Clean : GoString → GoString
  /-- The result of `build.ImportDir`, `none` on error. -/
  ImportDir : GoString → Option BuildPackage
  /-- The result of `parser.ParseDir` on a directory and a file filter: the map from
  package names to packages as a list of its entries, `none` on error. -/
  ParseDir : GoString → (GoString → Bool) → Option (List (GoString × AstPackage))
  /-- The result of `doc.New` on the result of a map lookup and an import path. -/
  docNew : Option AstPackage → GoString → DocPackage
  unicode : Unicode

/-- The package-level variables of `doc.go`. -/
structure Globals where
  args : List GoString
  matchCase : Bool
  unexported : Bool
  showCmd : Bool
deriving DecidableEq, Repr

/-- The initial values `var args []string`, `matchCase = false`, `unexported = false`,
`showCmd = false`. -/
def Globals.init : Globals := ⟨[], false, false, false⟩

/-- The function `path.Join`: the elements from the first non-empty one on, joined by
slashes and cleaned; the empty string when every element is empty. -/
def pathJoin (E : Env) : List GoString → GoString
  | [] => []
  | e :: es => if e ≠ [] then E.Clean (joinSlash (e :: es)) else pathJoin E es

/-! ## doc.go -/

/-- The constant `os.PathSeparator` on Unix. -/
def PathSeparator : Nat := 47

/-- The function `isDir`: the path ends in the path separator. -/
def isDir (dirPath : GoString) : Bool :=
  decide (dirPath.length > 0) && decide (dirPath.getLast? = some PathSeparator)

/-- The function `makePaths`: `dirPath` under the `src` directory of every non-empty entry
of GOPATH, then of GOROOT when it is set. -/
def makePaths (E : Env) (dirPath : GoString) : List GoString :=
  ((SplitList E.GOPATH).filter (fun dir => dir ≠ [])).map
      (fun dir => pathJoin E [dir, str "src", dirPath])
    ++ (if E.GOROOT ≠ [] then [pathJoin E [E.GOROOT, str "src", dirPath]] else [])

/-- The function `getDirs`: the names of the entries of `dirPath` that are directories,
a symbolic link being replaced by what `os.Stat` reports for it when that succeeds. -/
def getDirs (E : Env) (dirPath : GoString) : List GoString :=
  (E.ReadDir dirPath).filterMap (fun fi =>
    let fi1 :=
      if fi.IsSymlink then
        match E.Stat (pathJoin E [dirPath, fi.Name]) with
        | some fi2 => fi2
        | none => fi
      else fi
    if fi1.IsDir then some fi1.Name else none)

/-- The function `isPackage`: some entry of the directory has a name ending in `.go`. -/
def isPackage (E : Env) (p : GoString) : Bool :=
  (E.ReadDir p).any (fun fi => HasSuffix fi.Name (str ".go"))

/-- The function `hasPackages`: the directory has a subdirectory. -/
def hasPackages (E : Env) (p : GoString) : Bool :=
  decide ((getDirs E p).length > 0)

/-- The function `parsePackage`: the package name and its documentation, `none` standing
for the zero results `("", nil)`. -/
def parsePackage (E : Env) (dir : GoString) : Option (GoString × DocPackage) :=
  if dir = [] then none
  else
    match E.ImportDir dir with
    | none => none
    | some pkg =>
      let incl := fun (name : GoString) => pkg.GoFiles.contains name || pkg.CgoFiles.contains name
      match E.ParseDir pkg.Dir incl with
      | none => none
      | some pkgs =>
        if pkgs.length ≠ 1 then none
        else
          let astPkg := pkgs.lookup pkg.Name
          let docPkg := E.docNew astPkg pkg.ImportPath
          some (pkg.Name,
            docPkg.Types.foldl
              (fun d typ => ⟨d.Consts ++ typ.Consts, d.Vars ++ typ.Vars, d.Funcs ++ typ.Funcs, d.Types⟩)
              docPkg)

/-- The closure `simpleFold` of `suggestSymbol`:
`for { r1 := unicode.SimpleFold(r); if r1 <= r { return r1 }; r = r1 }`.
Every iteration that does not return increases `r`, which stays a 32-bit integer. -/
def simpleFold (U : Unicode) (r : Nat) : Nat :=
  if U.SimpleFold r ≤ r then U.SimpleFold r else simpleFold U (U.SimpleFold r)
termination_by 2147483648 - r
decreasing_by
  have h := U.SimpleFold_lt r
  omega

/-- The loop `for _, u := range tok { ... }` of `suggestSymbol` over the runes of `tok` still
to visit and the current value of `name`: `none` when the loop body returns, otherwise the
value of `name` after the loop. -/
def foldWalk (U : Unicode) : List Nat → GoString → Option GoString
  | [], name => some name
  | u :: us, name =>
    let p := (DecodeRuneInString name).1
    let w := (DecodeRuneInString name).2
    let name1 := name.drop w
    if u = p then foldWalk U us name1
    else if U.IsLower u && decide (simpleFold U u = simpleFold U p) then foldWalk U us name1
    else none

/-- The function `suggestSymbol`: the lines it prints. -/
def suggestSymbol (U : Unicode) (g : Globals) (tokRoot tok name : GoString) : List GoString :=
  -- Check if name is exported
  if !g.unexported && !U.IsUpper (DecodeRuneInString (name.drop (LastIndex name [46] + 1).toNat)).1 then
    []
  else if Index name tok = 0 then
    [tokRoot ++ name ++ [32]]
  else if !g.matchCase then
    match foldWalk U (rangeRunes tok 0) name with
    | none => []
    | some name1 => [tokRoot ++ tok ++ name1 ++ [32]]
  else []

/-- The function `suggestPackageContents`: its result and the lines it prints. -/
def suggestPackageContents (E : Env) (g : Globals) (pkgPath tokRoot tok : GoString) :
    Bool × List GoString :=
  match parsePackage E pkgPath with
  | none => (false, [])
  | some (name, pkg) =>
    if name = str "main" && !g.showCmd then (false, [])
    else
      (true,
        (pkg.Consts.flatMap (fun c => c.Names.flatMap (fun n => suggestSymbol E.unicode g tokRoot tok n)))
        ++ (pkg.Vars.flatMap (fun v => v.Names.flatMap (fun n => suggestSymbol E.unicode g tokRoot tok n)))
        ++ (pkg.Funcs.flatMap (fun f => suggestSymbol E.unicode g tokRoot tok f.Name))
        ++ (pkg.Types.flatMap (fun t =>
              suggestSymbol E.unicode g tokRoot tok t.Name
              ++ t.Methods.flatMap (fun m =>
                  suggestSymbol E.unicode g tokRoot tok (t.Name ++ [46] ++ m.Name)))))

/-- The function `suggestPackages`: the lines it prints. -/
def suggestPackages (E : Env) (tok : GoString) : List GoString :=
  let root := if isDir tok then tok else (pathSplit tok).1
  let base := if isDir tok then [] else (pathSplit tok).2
  (makePaths E root).flatMap (fun dirPath =>
    (getDirs E dirPath).flatMap (fun dir =>
      if Index dir base ≠ 0 then []
      else if Index dir [46] = 0 ∧ base.length = 0 then []
      else
        let p := pathJoin E [dirPath, dir]
        (if isPackage E p then [root ++ dir ++ [32]] else [])
        ++ (if hasPackages E p then [root ++ dir ++ [PathSeparator]] else [])))

/-- The loops `for _, pkgPath := range paths { if suggestPackageContents(...) { break } }` of
`handleDoc`: the lines printed. -/
def firstPackageContents (E : Env) (g : Globals) (tokRoot tok : GoString) :
    List GoString → List GoString
  | [] => []
  | pkgPath :: rest =>
    let r := suggestPackageContents E g pkgPath tokRoot tok
    if r.1 then r.2 else r.2 ++ firstPackageContents E g tokRoot tok rest

/-! ## default.go -/

/-- The function `suggestPaths`: the lines it prints and the count it returns. -/
def suggestPaths (E : Env) (tok : GoString) : List GoString × Nat :=
  let root := if isDir tok then tok else (pathSplit tok).1
  let base := if isDir tok then [] else (pathSplit tok).2
  let fis := if root = [] then E.ReadDir (str ".") else E.ReadDir root
  let out := fis.flatMap (fun fi =>
    if Index fi.Name base ≠ 0 then []
    else if Index fi.Name [46] = 0 ∧ base.length = 0 then []
    else if fi.IsDir then [root ++ fi.Name ++ [PathSeparator]]
    else [root ++ fi.Name ++ [32]])
  (out, out.length)

/-- The function `handleDefault`: the lines it prints.  The first argument bounds the depth
of the recursion; `none` means the bound was reached. -/
def handleDefault (E : Env) : Nat → tokenizer → Option (List GoString)
  | 0, _ => none
  | fuel + 1, t =>
    match t.Next with
    | (_, true, t1) => handleDefault E fuel t1
    | (tok, false, _) => some (suggestPackages E tok ++ (suggestPaths E tok).1)

/-! ## doc.go: `handleDoc` -/

/-- The `switch tok` of `handleDoc` on a token that is already typed. -/
def docOption (g : Globals) (tok : GoString) : Globals :=
  if tok = str "-c" ∨ tok = str "--c" then ⟨g.args, true, g.unexported, g.showCmd⟩
  else if tok = str "-u" ∨ tok = str "--u" then ⟨g.args, g.matchCase, true, g.showCmd⟩
  else if tok = str "-cmd" ∨ tok = str "--cmd" then ⟨g.args, g.matchCase, g.unexported, true⟩
  else ⟨g.args ++ [tok], g.matchCase, g.unexported, g.showCmd⟩

/-- The `else` branch of `handleDoc`, for the token under the cursor: the lines printed. -/
def docLive (E : Env) (g : Globals) (tok : GoString) : List GoString :=
  if Index tok (str "-") = 0 then
    -- go doc [-u] [-c] [-cmd]
    [str "-u", str "-c", str "-cmd"].flatMap (fun s =>
      if Index s tok = 0 then [s ++ [32]] else [])
  else
    match g.args.length with
    | 0 =>
      -- go doc <sym>[.<method>]
      let rel :=
        match E.Getwd with
        | some cwd => suggestPackageContents E g cwd [] tok
        | none => (false, [])
      -- go doc <pkg>
      let pkgs := if tok.length > 0 ∨ !rel.1 then suggestPackages E tok else []
      -- go doc [<pkg>].<sym>[.<method>]
      let root := (pathSplit tok).1
      let base := (pathSplit tok).2
      let i := Index base (str ".")
      let syms :=
        if tok.length > 0 ∧ i > 0 then
          let i1 := (i + root.length).toNat
          firstPackageContents E g (tok.take (i1 + 1)) (tok.drop (i1 + 1)) (makePaths E (tok.take i1))
        else []
      rel.2 ++ pkgs ++ syms
    | 1 =>
      -- go doc <pkg> <sym>[.<method>]
      firstPackageContents E g [] tok (makePaths E (g.args.headD []))
    | _ => []

/-- The function `handleDoc`: the lines it prints.  The first argument bounds the depth of
the recursion; `none` means the bound was reached. -/
def handleDoc (E : Env) : Nat → Globals → tokenizer → Option (List GoString)
  | 0, _, _ => none
  | fuel + 1, g, t =>
    match t.Next with
    | (tok, true, t1) => handleDoc E fuel (docOption g tok) t1
    | (tok, false, _) => some (docLive E g tok)

/-! ## main.go: `newTokenizer` and `main` -/

/-- The constant `cmd`. -/
def cmd : GoString := str "go"

/-- The variable `tools`. -/
def tools : List GoString :=
  [str "build", str "clean", str "doc", str "env", str "fix", str "fmt", str "generate",
   str "get", str "install", str "list", str "run", str "test", str "tool", str "version",
   str "vet", str "help"]

/-- The function `newTokenizer`: `none` stands for `nil`. -/
def newTokenizer (E : Env) : Option tokenizer :=
  let line := E.COMP_LINE
  match Atoi E.COMP_POINT with
  | none => none
  | some point =>
    if point > (line.length : Int) ∨ Index line (cmd ++ str " ") ≠ 0 then none
    else
      -- Consume first token
      some (tokenizer.Next ⟨line, point, false⟩).2.2

/-- What a run of the program leaves behind: the lines on standard output and the exit
status.  The usage text on standard error is left out. -/
structure Run where
  stdout : List GoString
  status : Nat
deriving DecidableEq, Repr

/-- The function `main`.  The first argument bounds the depth of the recursion of
`handleDoc` and `handleDefault`; `none` means the bound was reached. -/
def main (fuel : Nat) (E : Env) : Option Run :=
  match newTokenizer E with
  | some t =>
    match t.Next with
    | (tok, true, t1) =>
      if tok = str "doc" then (handleDoc E fuel Globals.init t1).map (fun out => ⟨out, 0⟩)
      else (handleDefault E fuel t1).map (fun out => ⟨out, 0⟩)
    | (tok, false, _) =>
      -- Suggest a tool
      some ⟨tools.flatMap (fun tool => if Index tool tok = 0 then [tool ++ [32]] else []), 0⟩
  | none => some ⟨[], 1⟩

/-! ## Sample environments for concrete evaluation -/

/-- The simple case folding of the ASCII letters, with the two orbits of three runes:
`K`, `k`, U+212A (Kelvin sign) and `S`, `s`, U+017F (long s); every other rune is
mapped to itself (and a number that is no 32-bit rune to 0). -/
def asciiFold (r : Nat) : Nat :=
  if r = 75 then 107 else if r = 107 then 8490 else if r = 8490 then 75
  else if r = 83 then 115 else if r = 115 then 383 else if r = 383 then 83
  else if 65 ≤ r ∧ r ≤ 90 then r + 32
  else if 97 ≤ r ∧ r ≤ 122 then r - 32
  else if r < 2147483648 then r
  else 0

/-- The Unicode tables restricted to the ASCII letters. -/
def asciiTables : Unicode where
  IsUpper := fun r => decide (65 ≤ r ∧ r ≤ 90)
  IsLower := fun r => decide (97 ≤ r ∧ r ≤ 122)
  SimpleFold := asciiFold
  SimpleFold_lt := by
    intro r
    unfold asciiFold
    repeat (split; omega)
    omega

/-- An environment with an empty file system and no Go workspace, for the command line
`line` and the cursor text `point`. -/
def bareEnv (line point : GoString) : Env where
  COMP_LINE := line
  COMP_POINT := point
  GOPATH := []
  GOROOT := []
  Getwd := none
  ReadDir := fun _ => []
  Stat := fun _ => none
  Clean := fun p => p
  ImportDir := fun _ => none
  ParseDir := fun _ _ => none
  docNew := fun _ _ => ⟨[], [], [], []⟩
  unicode := asciiTables

/-! ## The words of the specification -/

/-- Splitting at every space, as `strings.Split(s, " ")` does: the fields between
consecutive spaces, empty ones included.  The result is never empty. -/
def splitSpaces (s : GoString) : List GoString :=
  Split s 32

/-- The non-empty fields of `s` that are followed by a space inside `s`. -/
def committedFields (s : GoString) : List GoString :=
  (splitSpaces s).dropLast.filter (fun f => f ≠ [])

/-- The text of `s` after its last space (all of `s` when it has no space). -/
def liveText (s : GoString) : GoString :=
  (splitSpaces s).getLastD []

/-- The text of `name` after its final `.` (all of `name` when it has none): the simple
name of a candidate. -/
def simpleName : GoString → GoString
  | [] => []
  | c :: rest => if 46 ∈ rest then simpleName rest else if c = 46 then rest else c :: rest

/-- The text `s` without its first `n` runes. -/
def dropRunes : Nat → GoString → GoString
  | 0, s => s
  | n + 1, s => dropRunes n (s.drop (DecodeRuneInString s).2)

/-- The runes of `s`, an invalid byte counting as the rune U+FFFD. -/
def runes (s : GoString) : List Nat :=
  rangeRunes s 0

/-- The candidate passes the exported filter of `suggestSymbol`: the filter is off, or the
simple name begins with an upper-case rune. -/
def passesExported (U : Unicode) (g : Globals) (name : GoString) : Prop :=
  g.unexported = true ∨ U.IsUpper (DecodeRuneInString (simpleName name)).1 = true

/-- The state reached from `t` by `n` calls of `Next`. -/
def afterCalls (n : Nat) (t : tokenizer) : tokenizer :=
  (fun u => (tokenizer.Next u).2.2)^[n] t

/-! ## Further words of the specification and a sample file system -/

/-- The root that `suggestPackages` and `suggestPaths` compute from a token:
`root, base := path.Split(tok); if isDir(tok) { root, base = tok, "" }`. -/
def tokenRoot (tok : GoString) : GoString :=
  if isDir tok then tok else (pathSplit tok).1

/-- The base that `suggestPackages` and `suggestPaths` compute from a token. -/
def tokenBase (tok : GoString) : GoString :=
  if isDir tok then [] else (pathSplit tok).2

/-- The entry name passes the two filters of `suggestPackages` and `suggestPaths`: it has
`base` as a literal prefix, and it does not begin with `.` unless `base` is non-empty. -/
def passesFilters (base name : GoString) : Bool :=
  base.isPrefixOf name && !(([46] : GoString).isPrefixOf name && decide (base = []))

/-- The declaration names of a package in the order in which `suggestPackageContents` visits
them: constants, variables, functions, then each type followed by its methods as
`Type.Method`. -/
def declNames (pkg : DocPackage) : List GoString :=
  pkg.Consts.flatMap (fun c => c.Names)
    ++ pkg.Vars.flatMap (fun v => v.Names)
    ++ pkg.Funcs.map (fun f => f.Name)
    ++ pkg.Types.flatMap (fun t => t.Name :: t.Methods.map (fun m => t.Name ++ [46] ++ m.Name))

/-- The number of tokens of a line: its non-empty space-separated fields. -/
def tokenCount (line : GoString) : Nat :=
  ((splitSpaces line).filter (fun f => f ≠ [])).length

/-- The line ends in one of the two markers, `/` or a space. -/
def EndsWithMarker (l : GoString) : Prop :=
  ∃ text : GoString, l = text ++ [47] ∨ l = text ++ [32]

/-- The assumption on `unicode.SimpleFold`: the runes are partitioned into fold cycles by
the equivalence `C`, and `SimpleFold` maps a rune to the next larger rune of its cycle,
the largest rune of a cycle being mapped to the smallest. -/
structure FoldCycles (U : Unicode) (C : Nat → Nat → Prop) : Prop where
  refl : ∀ r, C r r
  symm : ∀ r s, C r s → C s r
  trans : ∀ r s t, C r s → C s t → C r t
  /-- The image of a rune lies in its cycle. -/
  next_mem : ∀ r, r < 2147483648 → C r (U.SimpleFold r)
  /-- A rune with a larger rune in its cycle is mapped to the least such rune. -/
  next_up : ∀ r s, r < 2147483648 → C r s → r < s → r < U.SimpleFold r ∧ U.SimpleFold r ≤ s
  /-- The largest rune of a cycle is mapped to the smallest one. -/
  wrap : ∀ r s, r < 2147483648 → (∀ t, C r t → t ≤ r) → C r s → U.SimpleFold r ≤ s

/-- The smallest rune of the fold cycle of `r` under `asciiFold`. -/
def asciiClass (r : Nat) : Nat :=
  if r = 107 ∨ r = 8490 then 75
  else if r = 115 ∨ r = 383 then 83
  else if 97 ≤ r ∧ r ≤ 122 then r - 32
  else r

/-- A sample `path.Clean`: one trailing slash is removed. -/
def trimSlash (p : GoString) : GoString :=
  if 1 < p.length ∧ p.getLast? = some 47 then p.dropLast else p

/-- A sample file system with the workspace `/w` and the Go root `/r`:
`/w/src` holds the empty directory `.git`, the package `pkg` (file `foo.go`, subdirectory
`sub`) and the file `notes.txt`; `/r/src` holds the packages `fmt` and `pkg` (file
`far.go`); the working directory `.` holds the directories `.git` and `docs` and the file
`main.go`. -/
def sampleReadDir (p : GoString) : List FileInfo :=
  if p = str "/w/src" then
    [⟨str ".git", true, false⟩, ⟨str "notes.txt", false, false⟩, ⟨str "pkg", true, false⟩]
  else if p = str "/w/src/pkg" then [⟨str "foo.go", false, false⟩, ⟨str "sub", true, false⟩]
  else if p = str "/r/src" then [⟨str "fmt", true, false⟩, ⟨str "pkg", true, false⟩]
  else if p = str "/r/src/fmt" then [⟨str "print.go", false, false⟩]
  else if p = str "/r/src/pkg" then [⟨str "far.go", false, false⟩]
  else if p = str "." then
    [⟨str ".git", true, false⟩, ⟨str "docs", true, false⟩, ⟨str "main.go", false, false⟩]
  else []

/-- The package of the sample file system at `/w/src/pkg`: the functions `Foo` and `bar`. -/
def samplePackage : DocPackage :=
  ⟨[], [], [⟨str "Foo"⟩, ⟨str "bar"⟩], []⟩

/-- The package of the sample file system at `/r/src/pkg`: the function `Far`. -/
def samplePackageRoot : DocPackage :=
  ⟨[], [], [⟨str "Far"⟩], []⟩

/-- The sample environment for the command line `line` and the cursor text `point`. -/
def sampleEnv (line point : GoString) : Env where
  COMP_LINE := line
  COMP_POINT := point
  GOPATH := str "/w"
  GOROOT := str "/r"
  Getwd := some (str "/home")
  ReadDir := sampleReadDir
  Stat := fun _ => none
  Clean := trimSlash
  ImportDir := fun dir =>
    if dir = str "/w/src/pkg" then some ⟨str "pkg", dir, str "pkg", [str "foo.go"], []⟩
    else if dir = str "/r/src/pkg" then some ⟨str "pkg", dir, str "pkg", [str "far.go"], []⟩
    else none
  ParseDir := fun dir _ =>
    if dir = str "/w/src/pkg" then some [(str "pkg", 1)]
    else if dir = str "/r/src/pkg" then some [(str "pkg", 2)]
    else none
  docNew := fun astPkg _ => if astPkg = some 2 then samplePackageRoot else samplePackage
  unicode := asciiTables

/-- The directory qualifies for `suggestPackageContents`: it parses to a single package, and
that package is not named `main` unless include-entry-point is on. -/
def Qualifies (E : Env) (g : Globals) (pkgPath : GoString) : Prop :=
  ∃ (name : GoString) (pkg : DocPackage), parsePackage E pkgPath = some (name, pkg)
    ∧ (name = str "main" → g.showCmd = true)

/-- The states from which the token loops are shown to end: the cursor is at most the
length of the line and not within that length of the least 64-bit integer. -/
structure InBounds (t : tokenizer) : Prop where
  hi : t.point ≤ (t.line.length : Int)
  lo : -9223372036854775808 + (t.line.length : Int) ≤ t.point
  len : t.line.length < 9223372036854775808

/-! ## Arithmetic and list lemmas -/

theorem wrapInt_of_range (x : Int) (h1 : -9223372036854775808 ≤ x)
    (h2 : x < 9223372036854775808) : wrapInt x = x := by
  unfold wrapInt
  omega

theorem Split_ne_nil (s : GoString) (sep : Nat) : Split s sep ≠ [] := by
  cases s with
  | nil => simp [Split]
  | cons c rest =>
    unfold Split
    split
    · simp
    · split <;> simp

theorem Split_no_sep (tok : GoString) (sep : Nat) (h : sep ∉ tok) : Split tok sep = [tok] := by
  induction tok with
  | nil => simp [Split]
  | cons c rest ih =>
    have hc : c ≠ sep := fun hEq => h (by simp [hEq])
    have hr : sep ∉ rest := fun hm => h (List.mem_cons_of_mem _ hm)
    simp [Split, hc, ih hr]

theorem Split_append_sep (tok r : GoString) (sep : Nat) (h : sep ∉ tok) :
    Split (tok ++ sep :: r) sep = tok :: Split r sep := by
  induction tok with
  | nil => simp [Split]
  | cons c rest ih =>
    have hc : c ≠ sep := fun hEq => h (by simp [hEq])
    have hr : sep ∉ rest := fun hm => h (List.mem_cons_of_mem _ hm)
    simp [Split, hc, ih hr]

theorem committedFields_no_space (tok : GoString) (h : 32 ∉ tok) : committedFields tok = [] := by
  simp [committedFields, splitSpaces, Split_no_sep tok 32 h]

theorem liveText_no_space (tok : GoString) (h : 32 ∉ tok) : liveText tok = tok := by
  simp [liveText, splitSpaces, Split_no_sep tok 32 h]

theorem committedFields_append_space (tok r : GoString) (h : 32 ∉ tok) :
    committedFields (tok ++ 32 :: r) = (if tok = [] then [] else [tok]) ++ committedFields r := by
  unfold committedFields splitSpaces
  rw [Split_append_sep tok r 32 h]
  have hne := Split_ne_nil r 32
  cases hs : Split r 32 with
  | nil => exact absurd hs hne
  | cons f fs =>
    by_cases ht : tok = []
    · simp [ht, List.dropLast]
    · simp [ht, List.dropLast, List.filter_cons]

theorem liveText_append_space (tok r : GoString) (h : 32 ∉ tok) :
    liveText (tok ++ 32 :: r) = liveText r := by
  unfold liveText splitSpaces
  rw [Split_append_sep tok r 32 h]
  have hne := Split_ne_nil r 32
  cases hs : Split r 32 with
  | nil => exact absurd hs hne
  | cons f fs => simp [List.getLastD_cons]

theorem committedFields_spaces (i : Nat) (s : GoString) :
    committedFields (List.replicate i 32 ++ s) = committedFields s := by
  induction i with
  | zero => simp
  | succ n ih =>
    have := committedFields_append_space [] (List.replicate n 32 ++ s) (by simp)
    simpa [List.replicate_succ, ih] using this

theorem liveText_spaces (i : Nat) (s : GoString) :
    liveText (List.replicate i 32 ++ s) = liveText s := by
  induction i with
  | zero => simp
  | succ n ih =>
    have := liveText_append_space [] (List.replicate n 32 ++ s) (by simp)
    simpa [List.replicate_succ, ih] using this

/-! ## The tokenizer on a decomposed line -/

/-- A line as its leading spaces, its first token and the rest. -/
structure Decomp (line : GoString) (i : Nat) (tok rest : GoString) : Prop where
  eq : line = List.replicate i 32 ++ (tok ++ rest)
  no_space : 32 ∉ tok
  rest_space : rest = [] ∨ ∃ r, rest = 32 :: r
  tok_nil : tok = [] → rest = []

theorem exists_decomp (line : GoString) : ∃ i tok rest, Decomp line i tok rest := by
  induction line with
  | nil => exact ⟨0, [], [], by simp, by simp, Or.inl rfl, fun _ => rfl⟩
  | cons c l ih =>
    obtain ⟨i, tok, rest, h⟩ := ih
    by_cases hc : c = 32
    · refine ⟨i + 1, tok, rest, ?_, h.no_space, h.rest_space, h.tok_nil⟩
      rw [h.eq, hc, List.replicate_succ]
      rfl
    · cases i with
      | zero =>
        refine ⟨0, c :: tok, rest, ?_, ?_, h.rest_space, by simp⟩
        · rw [h.eq]; simp
        · intro hm
          rcases List.mem_cons.1 hm with h1 | h1
          · exact hc h1.symm
          · exact h.no_space h1
      | succ n =>
        refine ⟨0, [c], l, by simp, ?_, Or.inr ⟨List.replicate n 32 ++ (tok ++ rest), ?_⟩, by simp⟩
        · intro hm
          exact hc (List.mem_singleton.1 hm).symm
        · rw [h.eq, List.replicate_succ]
          rfl

theorem tokenRun_decomp (tok rest : GoString) (h1 : 32 ∉ tok)
    (h2 : rest = [] ∨ ∃ r, rest = 32 :: r) : tokenRun (tok ++ rest) = tok.length := by
  induction tok with
  | nil =>
    rcases h2 with h | ⟨r, h⟩ <;> simp [h, tokenRun]
  | cons c t ih =>
    have hc : c ≠ 32 := fun hEq => h1 (by simp [hEq])
    have ht : 32 ∉ t := fun hm => h1 (List.mem_cons_of_mem _ hm)
    simp [tokenRun, hc, ih ht]

theorem spaceRun_decomp (i : Nat) (tok rest : GoString) (h1 : 32 ∉ tok)
    (h3 : tok = [] → rest = []) : spaceRun (List.replicate i 32 ++ (tok ++ rest)) = i := by
  induction i with
  | zero =>
    cases tok with
    | nil => simp [h3 rfl, spaceRun]
    | cons c t =>
      have hc : c ≠ 32 := fun hEq => h1 (by simp [hEq])
      simp [spaceRun, hc]
  | succ n ih => simp [List.replicate_succ, spaceRun, ih]

/-- The result of `Next` on a decomposed line, while the cursor arithmetic stays in range. -/
theorem Next_decomp (line : GoString) (i : Nat) (tok rest : GoString) (point : Int) (e : Bool)
    (h : Decomp line i tok rest) (hlo : -9223372036854775808 ≤ point - i - tok.length)
    (hhi : point < 9223372036854775808) :
    tokenizer.Next ⟨line, point, e⟩ =
      if point - i ≤ tok.length then (tok.take (point - i).toNat, false, ⟨[], 0, e⟩)
      else (tok, true, ⟨rest, point - i - tok.length, e⟩) := by
  have hs : spaceRun line = i := by rw [h.eq]; exact spaceRun_decomp i tok rest h.no_space h.tok_nil
  have hd : line.drop i = tok ++ rest := by
    rw [h.eq, List.drop_left' (List.length_replicate i 32)]
  have ht : tokenRun (tok ++ rest) = tok.length := tokenRun_decomp tok rest h.no_space h.rest_space
  have hw1 : wrapInt (point - i) = point - i := wrapInt_of_range _ (by omega) (by omega)
  have hw2 : wrapInt (point - i - tok.length) = point - i - tok.length :=
    wrapInt_of_range _ (by omega) (by omega)
  unfold tokenizer.Next
  simp only [hs, hd, ht, hw1, hw2, List.take_left', List.drop_left', List.length_take]
  by_cases hp : point - (i : Int) ≤ (tok.length : Int)
  · have hng : ¬ (point - (i : Int) > (tok.length : Int)) := by omega
    by_cases hneg : point - (i : Int) < 0
    · have : (point - (i : Int)).toNat = 0 := by omega
      simp [hp, hng, hneg, this]
    · simp [hp, hng, hneg]
  · have hg : point - (i : Int) > (tok.length : Int) := by omega
    simp [hp, hg]

theorem take_decomp_spaces (i : Nat) (s : GoString) (k : Nat) (hk : k ≤ i) :
    (List.replicate i 32 ++ s).take k = List.replicate k 32 := by
  rw [List.take_append_of_le_length (by simpa using hk), List.take_replicate, Nat.min_eq_left hk]

theorem take_decomp_token (i : Nat) (tok rest : GoString) (k : Nat) (hk : k ≤ tok.length) :
    (List.replicate i 32 ++ (tok ++ rest)).take (i + k)
      = List.replicate i 32 ++ tok.take k := by
  have h1 : (List.replicate i 32 ++ (tok ++ rest)).take (i + k)
      = List.replicate i 32 ++ (tok ++ rest).take k := by
    have := @List.take_append _ (List.replicate i 32) (tok ++ rest) k
    simpa using this
  rw [h1, List.take_append_of_le_length hk]

theorem take_decomp_rest (i : Nat) (tok rest : GoString) (k : Nat) :
    (List.replicate i 32 ++ (tok ++ rest)).take (i + tok.length + k)
      = List.replicate i 32 ++ (tok ++ rest.take k) := by
  have h1 : (List.replicate i 32 ++ (tok ++ rest)).take (i + (tok.length + k))
      = List.replicate i 32 ++ (tok ++ rest).take (tok.length + k) := by
    have := @List.take_append _ (List.replicate i 32) (tok ++ rest) (tok.length + k)
    simpa using this
  rw [Nat.add_assoc, h1, List.take_append]

/-- The tokens of a line up to the cursor, for every bound above the length of the line. -/
theorem nextUntilLive_eq (fuel : Nat) : ∀ (line : GoString) (offset : Nat) (e : Bool),
    offset ≤ line.length → line.length < 9223372036854775808 → line.length < fuel →
    nextUntilLive fuel ⟨line, (offset : Int), e⟩
      = some (committedFields (line.take offset), liveText (line.take offset)) := by
  induction fuel with
  | zero => intro line offset e _ _ h; omega
  | succ fuel ih =>
    intro line offset e hoff hlen hfuel
    obtain ⟨i, tok, rest, h⟩ := exists_decomp line
    have hl : line.length = i + (tok.length + rest.length) := by
      rw [h.eq]; simp
    have hN := Next_decomp line i tok rest offset e h (by omega) (by omega)
    unfold nextUntilLive
    by_cases hp : (offset : Int) - (i : Int) ≤ (tok.length : Int)
    · rw [hN, if_pos hp]
      simp only
      by_cases hk : offset ≤ i
      · have h0 : ((offset : Int) - (i : Int)).toNat = 0 := by omega
        have ht : line.take offset = List.replicate offset 32 ++ [] := by
          rw [h.eq, take_decomp_spaces i _ offset hk]; simp
        rw [h0, ht, committedFields_spaces, liveText_spaces]
        simp [committedFields_no_space, liveText_no_space]
      · have hk1 : ((offset : Int) - (i : Int)).toNat = offset - i := by omega
        have ht : line.take offset = List.replicate i 32 ++ tok.take (offset - i) := by
          have := take_decomp_token i tok rest (offset - i) (by omega)
          rw [h.eq, ← this]
          congr 1
          omega
        have hns : 32 ∉ tok.take (offset - i) := fun hm => h.no_space (List.mem_of_mem_take hm)
        rw [hk1, ht, committedFields_spaces, liveText_spaces, committedFields_no_space _ hns,
          liveText_no_space _ hns]
    · rw [hN, if_neg hp]
      simp only
      have htok : tok ≠ [] := by
        intro ht
        have := h.tok_nil ht
        simp [ht, this] at hl hp
        omega
      have htl : 0 < tok.length := List.length_pos.2 htok
      obtain ⟨r, hr⟩ : ∃ r, rest = 32 :: r := by
        rcases h.rest_space with h0 | h1
        · simp [h0] at hl
          omega
        · exact h1
      have hpt : (offset : Int) - (i : Int) - (tok.length : Int)
          = ((offset - i - tok.length : Nat) : Int) := by omega
      have hk : offset = i + tok.length + (offset - i - tok.length) := by omega
      have hke : offset - i - tok.length = (offset - i - tok.length - 1) + 1 := by omega
      rw [hpt, ih rest (offset - i - tok.length) e (by omega) (by omega) (by omega)]
      have ht : line.take offset
          = List.replicate i 32 ++ (tok ++ rest.take (offset - i - tok.length)) := by
        have := take_decomp_rest i tok rest (offset - i - tok.length)
        rw [h.eq, ← this, ← hk]
      have hrt : rest.take (offset - i - tok.length)
          = 32 :: r.take (offset - i - tok.length - 1) := by
        rw [hr, hke, List.take_succ_cons]
        simp
      rw [ht, committedFields_spaces, liveText_spaces, hrt,
        committedFields_append_space tok _ h.no_space, liveText_append_space tok _ h.no_space]
      have e1 := committedFields_append_space [] (r.take (offset - i - tok.length - 1)) (by simp)
      have e2 := liveText_append_space [] (r.take (offset - i - tok.length - 1)) (by simp)
      simp only [List.nil_append] at e1 e2
      simp [e1, e2, htok]

/-! ## Lemmas on the string functions -/

theorem Index_eq_zero_iff (s substr : GoString) : Index s substr = 0 ↔ substr <+: s := by
  cases s with
  | nil =>
    unfold Index
    by_cases h : substr.isPrefixOf [] = true
    · simp [h, List.isPrefixOf_iff_prefix.1 h]
    · have h1 : ¬ substr <+: [] := fun hp => h (List.isPrefixOf_iff_prefix.2 hp)
      simp [h, h1]
  | cons c rest =>
    unfold Index
    by_cases h : substr.isPrefixOf (c :: rest) = true
    · simp [h, List.isPrefixOf_iff_prefix.1 h]
    · have h1 : ¬ substr <+: c :: rest := fun hp => h (List.isPrefixOf_iff_prefix.2 hp)
      simp only [h, h1, iff_false]
      simp only [Bool.false_eq_true, if_false]
      split <;> omega

theorem LastIndex_dot (name : GoString) :
    (46 ∈ name ↔ 0 ≤ LastIndex name [46]) ∧ (-1 ≤ LastIndex name [46])
      ∧ name.drop (LastIndex name [46] + 1).toNat = simpleName name := by
  induction name with
  | nil => simp [LastIndex, simpleName, List.isPrefixOf]
  | cons c rest ih =>
    obtain ⟨ih1, ih2, ih3⟩ := ih
    unfold LastIndex simpleName
    by_cases hm : 46 ∈ rest
    · have hr : 0 ≤ LastIndex rest [46] := ih1.1 hm
      have e : (LastIndex rest [46] + 1 + 1).toNat = (LastIndex rest [46] + 1).toNat + 1 := by omega
      simp only [hr, if_true, hm, e, List.drop_succ_cons]
      refine ⟨?_, by omega, ih3⟩
      simp [hm]
      omega
    · have hr : ¬ 0 ≤ LastIndex rest [46] := fun h => hm (ih1.2 h)
      by_cases hc : c = 46
      · simp [hr, hm, hc, List.isPrefixOf]
      · have hc1 : ¬ (46 = c) := fun h => hc h.symm
        simp [hr, hm, hc, hc1, List.isPrefixOf]

theorem flatMap_ite_singleton {α β : Type} (p : α → Bool) (f : α → β) (l : List α) :
    l.flatMap (fun a => if p a = true then [f a] else []) = (l.filter p).map f := by
  induction l with
  | nil => rfl
  | cons a t ih =>
    by_cases h : p a = true
    · simp [List.flatMap_cons, List.filter_cons, h, ih]
    · simp [List.flatMap_cons, List.filter_cons, h, ih]

theorem Next_exhausted (e : Bool) :
    tokenizer.Next ⟨[], 0, e⟩ = ([], false, ⟨[], 0, e⟩) := by
  simp [tokenizer.Next, spaceRun, tokenRun, wrapInt]

theorem afterCalls_exhausted (n : Nat) (e : Bool) : afterCalls n ⟨[], 0, e⟩ = ⟨[], 0, e⟩ := by
  induction n with
  | zero => rfl
  | succ n ih =>
    unfold afterCalls at ih ⊢
    rw [Function.iterate_succ_apply, Next_exhausted]
    exact ih

theorem Next_live_state (t : tokenizer) (h : (tokenizer.Next t).2.1 = false) :
    (tokenizer.Next t).2.2 = ⟨[], 0, t.end⟩ := by
  unfold tokenizer.Next at h ⊢
  by_cases hp : wrapInt (t.point - (spaceRun t.line : Int))
      ≤ (((t.line.drop (spaceRun t.line)).take
          (tokenRun (t.line.drop (spaceRun t.line)))).length : Int)
  · simp only [hp, if_true]
  · have hg : wrapInt (t.point - (spaceRun t.line : Int))
        > (((t.line.drop (spaceRun t.line)).take
            (tokenRun (t.line.drop (spaceRun t.line)))).length : Int) := by omega
    simp only [hp, if_false, hg, decide_True] at h
    cases h

/-- What `handleDoc` prints once the tokens before the cursor are consumed. -/
theorem handleDoc_eq (E : Env) (fuel : Nat) : ∀ (g : Globals) (t : tokenizer)
    (cs : List GoString) (tok : GoString), nextUntilLive fuel t = some (cs, tok) →
    handleDoc E fuel g t = some (docLive E (cs.foldl docOption g) tok) := by
  induction fuel with
  | zero => intro g t cs tok h; simp [nextUntilLive] at h
  | succ fuel ih =>
    intro g t cs tok h
    unfold nextUntilLive at h
    unfold handleDoc
    rcases hN : tokenizer.Next t with ⟨tok1, old, t1⟩
    rw [hN] at h
    cases old with
    | true =>
      simp only [Option.map_eq_some'] at h
      obtain ⟨⟨cs1, tok2⟩, h1, h2⟩ := h
      simp only [Prod.mk.injEq] at h2
      obtain ⟨rfl, rfl⟩ := h2
      simpa using ih (docOption g tok1) t1 cs1 tok2 h1
    | false =>
      simp only [Option.some.injEq, Prod.mk.injEq] at h
      obtain ⟨rfl, rfl⟩ := h
      rfl

/-! ## Lemmas on `suggestSymbol` -/

theorem DecodeRuneInString_width_pos (s : GoString) (h : s ≠ []) :
    1 ≤ (DecodeRuneInString s).2 := by
  cases s with
  | nil => exact absurd rfl h
  | cons s0 t =>
    unfold DecodeRuneInString
    simp only
    generalize (if s0 = 0xE0 then 0xA0 else if s0 = 0xF0 then 0x90 else 0x80) = lo
    generalize (if s0 = 0xED then 0x9F else if s0 = 0xF4 then 0x8F else 0xBF) = hi
    rcases t with _ | ⟨s1, _ | ⟨s2, _ | ⟨s3, t3⟩⟩⟩ <;> simp only <;> split_ifs <;> simp

theorem rangeRunes_skip (s : GoString) : ∀ k : Nat, rangeRunes s k = rangeRunes (s.drop k) 0 := by
  induction s with
  | nil => intro k; simp [rangeRunes]
  | cons b rest ih =>
    intro k
    cases k with
    | zero => rfl
    | succ k => simpa [rangeRunes] using ih k

theorem runes_nil : runes [] = [] := rfl

theorem runes_of_ne_nil (s : GoString) (h : s ≠ []) :
    runes s = (DecodeRuneInString s).1 :: runes (s.drop (DecodeRuneInString s).2) := by
  cases s with
  | nil => exact absurd rfl h
  | cons b rest =>
    have hw := DecodeRuneInString_width_pos (b :: rest) h
    obtain ⟨w, hw1⟩ : ∃ w, (DecodeRuneInString (b :: rest)).2 = w + 1 :=
      ⟨(DecodeRuneInString (b :: rest)).2 - 1, by omega⟩
    unfold runes
    rw [rangeRunes, rangeRunes_skip rest, hw1]
    simp

theorem simpleFold_unfold (U : Unicode) (r : Nat) :
    simpleFold U r
      = if U.SimpleFold r ≤ r then U.SimpleFold r else simpleFold U (U.SimpleFold r) := by
  rw [simpleFold]

/-- The function `suggestSymbol` with its tests spelled out. -/
theorem suggestSymbol_eq (U : Unicode) (g : Globals) (tokRoot tok name : GoString) :
    suggestSymbol U g tokRoot tok name =
      if g.unexported = false ∧ U.IsUpper (DecodeRuneInString (simpleName name)).1 = false then []
      else if tok <+: name then [tokRoot ++ name ++ [32]]
      else if g.matchCase = false then
        match foldWalk U (runes tok) name with
        | none => []
        | some name1 => [tokRoot ++ tok ++ name1 ++ [32]]
      else [] := by
  unfold suggestSymbol runes
  rw [(LastIndex_dot name).2.2]
  by_cases h1 : g.unexported = false ∧ U.IsUpper (DecodeRuneInString (simpleName name)).1 = false
  · simp [h1]
  · have h1b : (!g.unexported && !U.IsUpper (DecodeRuneInString (simpleName name)).1) = false := by
      cases hu : g.unexported <;> cases hi : U.IsUpper (DecodeRuneInString (simpleName name)).1
        <;> simp_all
    rw [if_neg h1, h1b]
    simp only [Bool.false_eq_true, if_false]
    by_cases h2 : tok <+: name
    · simp [h2, (Index_eq_zero_iff name tok).2 h2]
    · have h2b : ¬ Index name tok = 0 := fun hi => h2 ((Index_eq_zero_iff name tok).1 hi)
      rw [if_neg h2, if_neg h2b]
      cases hm : g.matchCase <;> simp

theorem not_filtered_of_passes (U : Unicode) (g : Globals) (name : GoString)
    (h : passesExported U g name) :
    ¬ (g.unexported = false ∧ U.IsUpper (DecodeRuneInString (simpleName name)).1 = false) := by
  rintro ⟨h1, h2⟩
  rcases h with h | h
  · rw [h1] at h; cases h
  · rw [h2] at h; cases h

/-- The walk of `suggestSymbol` over a token whose runes match those of the name position by
position. -/
theorem foldWalk_of_match (U : Unicode) : ∀ (us : List Nat) (name : GoString),
    (∀ k : Nat, k < us.length → ∃ u p : Nat, us[k]? = some u ∧ (runes name)[k]? = some p
      ∧ (u = p ∨ (U.IsLower u = true ∧ simpleFold U u = simpleFold U p))) →
    foldWalk U us name = some (dropRunes us.length name) := by
  intro us
  induction us with
  | nil => intro name _; rfl
  | cons u us ih =>
    intro name h
    obtain ⟨u0, p, hu, hp, hm⟩ := h 0 (by simp)
    simp only [List.getElem?_cons_zero, Option.some.injEq] at hu
    subst hu
    have hne : name ≠ [] := by
      intro hn
      rw [hn, runes_nil] at hp
      simp at hp
    have hr := runes_of_ne_nil name hne
    rw [hr] at hp
    simp only [List.getElem?_cons_zero, Option.some.injEq] at hp
    have hrest : ∀ k : Nat, k < us.length → ∃ u p : Nat, us[k]? = some u
        ∧ (runes (name.drop (DecodeRuneInString name).2))[k]? = some p
        ∧ (u = p ∨ (U.IsLower u = true ∧ simpleFold U u = simpleFold U p)) := by
      intro k hk
      obtain ⟨u1, p1, h1, h2, h3⟩ := h (k + 1) (by simpa using hk)
      rw [hr] at h2
      exact ⟨u1, p1, by simpa using h1, by simpa using h2, h3⟩
    have hrec := ih (name.drop (DecodeRuneInString name).2) hrest
    unfold foldWalk
    simp only [List.length_cons, dropRunes]
    rw [hp]
    rcases hm with hm | ⟨hl, hf⟩
    · rw [if_pos hm]; exact hrec
    · by_cases he : u = p
      · rw [if_pos he]; exact hrec
      · rw [if_neg he]
        simp only [hl, hf, decide_True, Bool.and_self, if_true]
        exact hrec

/-! ## Lemmas on the candidates of a package -/

theorem flatMap_names {α : Type} (f : GoString → List α) (vs : List DocValue) :
    vs.flatMap (fun c => c.Names.flatMap f) = (vs.flatMap (fun c => c.Names)).flatMap f := by
  induction vs with
  | nil => rfl
  | cons v t ih => simp [List.flatMap_cons, List.flatMap_append, ih]

theorem flatMap_types {α : Type} (f : GoString → List α) (ts : List DocType) :
    ts.flatMap (fun t => f t.Name ++ t.Methods.flatMap (fun m => f (t.Name ++ [46] ++ m.Name)))
      = (ts.flatMap (fun t => t.Name :: t.Methods.map (fun m => t.Name ++ [46] ++ m.Name))).flatMap f := by
  induction ts with
  | nil => rfl
  | cons t ts ih =>
    have hm : ∀ ms : List DocFunc, ms.flatMap (fun m => f (t.Name ++ [46] ++ m.Name))
        = (ms.map (fun m => t.Name ++ [46] ++ m.Name)).flatMap f := by
      intro ms
      induction ms with
      | nil => rfl
      | cons m ms ihm => simp only [List.flatMap_cons, List.map_cons, ihm]
    simp only [List.flatMap_cons, List.flatMap_append, ih, hm]

theorem flatMap_declNames {α : Type} (f : GoString → List α) (pkg : DocPackage) :
    pkg.Consts.flatMap (fun c => c.Names.flatMap f)
      ++ pkg.Vars.flatMap (fun v => v.Names.flatMap f)
      ++ pkg.Funcs.flatMap (fun fn => f fn.Name)
      ++ pkg.Types.flatMap (fun t =>
          f t.Name ++ t.Methods.flatMap (fun m => f (t.Name ++ [46] ++ m.Name)))
      = (declNames pkg).flatMap f := by
  have hf : pkg.Funcs.flatMap (fun fn => f fn.Name) = (pkg.Funcs.map (fun fn => fn.Name)).flatMap f := by
    induction pkg.Funcs with
    | nil => rfl
    | cons m ms ihm => simp [List.flatMap_cons, ihm]
  unfold declNames
  rw [flatMap_names, flatMap_names, flatMap_types, hf]
  simp only [List.flatMap_append]

/-- The function `suggestPackageContents` over the declaration names of the package. -/
theorem suggestPackageContents_eq (E : Env) (g : Globals) (pkgPath tokRoot tok : GoString) :
    suggestPackageContents E g pkgPath tokRoot tok =
      match parsePackage E pkgPath with
      | none => (false, [])
      | some (name, pkg) =>
        if name = str "main" ∧ g.showCmd = false then (false, [])
        else (true, (declNames pkg).flatMap (suggestSymbol E.unicode g tokRoot tok)) := by
  unfold suggestPackageContents
  cases hp : parsePackage E pkgPath with
  | none => rfl
  | some r =>
    obtain ⟨name, pkg⟩ := r
    simp only
    rw [flatMap_declNames (suggestSymbol E.unicode g tokRoot tok) pkg]
    by_cases hn : name = str "main" <;> cases hs : g.showCmd <;> simp [hn]

theorem suggestSymbol_empty_token (U : Unicode) (g : Globals) (tokRoot name : GoString)
    (hu : g.unexported = false) :
    suggestSymbol U g tokRoot [] name
      = if U.IsUpper (DecodeRuneInString (simpleName name)).1 = true then [tokRoot ++ name ++ [32]]
        else [] := by
  rw [suggestSymbol_eq]
  cases h : U.IsUpper (DecodeRuneInString (simpleName name)).1
  · simp [hu]
  · simp [hu]

/-! ## Lemmas on the path candidates -/

theorem flatMap_filter_ite {α β : Type} (p : α → Bool) (f : α → List β) (l : List α) :
    l.flatMap (fun a => if p a = true then f a else []) = (l.filter p).flatMap f := by
  induction l with
  | nil => rfl
  | cons a t ih =>
    by_cases h : p a = true
    · simp [List.flatMap_cons, List.filter_cons, h, ih]
    · simp [List.flatMap_cons, List.filter_cons, h, ih]

theorem passesFilters_iff (base name : GoString) :
    passesFilters base name = true ↔ base <+: name ∧ ¬ ([46] <+: name ∧ base = []) := by
  unfold passesFilters
  simp only [Bool.and_eq_true, Bool.not_eq_true', Bool.and_eq_false_iff, decide_eq_false_iff_not,
    List.isPrefixOf_iff_prefix, decide_eq_true_eq, not_and_or]
  constructor
  · rintro ⟨h1, h2⟩
    refine ⟨h1, ?_⟩
    rcases h2 with h2 | h2
    · left
      intro hp
      have := List.isPrefixOf_iff_prefix.2 hp
      rw [this] at h2
      cases h2
    · right; exact h2
  · rintro ⟨h1, h2⟩
    refine ⟨h1, ?_⟩
    rcases h2 with h2 | h2
    · left
      cases hb : ([46] : GoString).isPrefixOf name
      · rfl
      · exact absurd (List.isPrefixOf_iff_prefix.1 hb) h2
    · right; exact h2

theorem filters_ite {β : Type} (base name : GoString) (x : List β) :
    (if Index name base ≠ 0 then [] else if Index name [46] = 0 ∧ base.length = 0 then [] else x)
      = if passesFilters base name = true then x else [] := by
  by_cases hp : passesFilters base name = true
  · rw [if_pos hp]
    obtain ⟨h1, h2⟩ := (passesFilters_iff base name).1 hp
    have e1 : ¬ Index name base ≠ 0 := fun h => h ((Index_eq_zero_iff name base).2 h1)
    have e2 : ¬ (Index name [46] = 0 ∧ base.length = 0) := fun h =>
      h2 ⟨(Index_eq_zero_iff name [46]).1 h.1, List.length_eq_zero.1 h.2⟩
    rw [if_neg e1, if_neg e2]
  · rw [if_neg hp]
    by_cases e1 : Index name base ≠ 0
    · rw [if_pos e1]
    · rw [if_neg e1]
      by_cases e2 : Index name [46] = 0 ∧ base.length = 0
      · rw [if_pos e2]
      · exfalso
        apply hp
        rw [passesFilters_iff]
        refine ⟨(Index_eq_zero_iff name base).1 (not_not.1 e1), fun h => e2 ⟨?_, ?_⟩⟩
        · exact (Index_eq_zero_iff name [46]).2 h.1
        · rw [h.2]; rfl

/-- The directory that `suggestPaths` lists for a token. -/
theorem suggestPaths_eq (E : Env) (tok : GoString) :
    (suggestPaths E tok).1
      = ((if tokenRoot tok = [] then E.ReadDir (str ".") else E.ReadDir (tokenRoot tok)).filter
          (fun fi => passesFilters (tokenBase tok) fi.Name)).map
          (fun fi => tokenRoot tok ++ fi.Name ++ [if fi.IsDir = true then 47 else 32]) := by
  unfold suggestPaths tokenRoot tokenBase
  simp only
  rw [← flatMap_ite_singleton]
  apply List.flatMap_congr
  intro fi _
  rw [filters_ite]
  cases hd : fi.IsDir <;> simp [PathSeparator]

/-- The candidates of `suggestPackages` over the search roots and their subdirectories. -/
theorem suggestPackages_eq (E : Env) (tok : GoString) :
    suggestPackages E tok
      = (makePaths E (tokenRoot tok)).flatMap (fun dirPath =>
          ((getDirs E dirPath).filter (fun dir => passesFilters (tokenBase tok) dir)).flatMap
            (fun dir =>
              (if isPackage E (pathJoin E [dirPath, dir]) = true then [tokenRoot tok ++ dir ++ [32]]
                else [])
              ++ (if hasPackages E (pathJoin E [dirPath, dir]) = true then
                    [tokenRoot tok ++ dir ++ [47]]
                  else []))) := by
  unfold suggestPackages tokenRoot tokenBase
  simp only
  apply List.flatMap_congr
  intro dirPath _
  rw [← flatMap_filter_ite]
  apply List.flatMap_congr
  intro dir _
  rw [filters_ite]
  rfl

theorem mem_suggestPaths (E : Env) (tok l : GoString) :
    l ∈ (suggestPaths E tok).1 ↔
      ∃ fi, fi ∈ (if tokenRoot tok = [] then E.ReadDir (str ".") else E.ReadDir (tokenRoot tok))
        ∧ passesFilters (tokenBase tok) fi.Name = true
        ∧ l = tokenRoot tok ++ fi.Name ++ [if fi.IsDir = true then 47 else 32] := by
  rw [suggestPaths_eq, List.mem_map]
  constructor
  · rintro ⟨fi, hfi, rfl⟩
    rw [List.mem_filter] at hfi
    exact ⟨fi, hfi.1, hfi.2, rfl⟩
  · rintro ⟨fi, h1, h2, rfl⟩
    exact ⟨fi, List.mem_filter.2 ⟨h1, h2⟩, rfl⟩

theorem mem_suggestPackages (E : Env) (tok l : GoString) :
    l ∈ suggestPackages E tok ↔
      ∃ dirPath, dirPath ∈ makePaths E (tokenRoot tok) ∧ ∃ dir, dir ∈ getDirs E dirPath
        ∧ passesFilters (tokenBase tok) dir = true
        ∧ ((isPackage E (pathJoin E [dirPath, dir]) = true ∧ l = tokenRoot tok ++ dir ++ [32])
          ∨ (hasPackages E (pathJoin E [dirPath, dir]) = true ∧ l = tokenRoot tok ++ dir ++ [47])) := by
  rw [suggestPackages_eq]
  simp only [List.mem_flatMap, List.mem_filter, List.mem_append]
  constructor
  · rintro ⟨dp, hdp, d, ⟨hd, hf⟩, h⟩
    refine ⟨dp, hdp, d, hd, hf, ?_⟩
    rcases h with h | h
    · left
      by_cases hp : isPackage E (pathJoin E [dp, d]) = true
      · rw [if_pos hp] at h
        exact ⟨hp, List.mem_singleton.1 h⟩
      · rw [if_neg hp] at h
        cases h
    · right
      by_cases hp : hasPackages E (pathJoin E [dp, d]) = true
      · rw [if_pos hp] at h
        exact ⟨hp, List.mem_singleton.1 h⟩
      · rw [if_neg hp] at h
        cases h
  · rintro ⟨dp, hdp, d, hd, hf, h⟩
    refine ⟨dp, hdp, d, ⟨hd, hf⟩, ?_⟩
    rcases h with ⟨hp, rfl⟩ | ⟨hp, rfl⟩
    · left; rw [if_pos hp]; exact List.mem_singleton.2 rfl
    · right; rw [if_pos hp]; exact List.mem_singleton.2 rfl

theorem tokenRoot_append_tokenBase (tok : GoString) : tokenRoot tok ++ tokenBase tok = tok := by
  unfold tokenRoot tokenBase pathSplit
  by_cases h : isDir tok = true
  · simp [h]
  · simp [h]

theorem LastIndex_slash_none (base : GoString) (h : 47 ∉ base) : LastIndex base [47] = -1 := by
  induction base with
  | nil => simp [LastIndex, List.isPrefixOf]
  | cons c rest ih =>
    have hc : ¬ (47 = c) := fun hEq => h (by simp [hEq])
    have hr : 47 ∉ rest := fun hm => h (List.mem_cons_of_mem _ hm)
    simp [LastIndex, ih hr, List.isPrefixOf, hc]

theorem LastIndex_slash_append (pre base : GoString) (h : 47 ∉ base) :
    LastIndex (pre ++ 47 :: base) [47] = pre.length := by
  induction pre with
  | nil => simp [LastIndex, LastIndex_slash_none base h, List.isPrefixOf]
  | cons c rest ih =>
    have h0 : (0 : Int) ≤ (rest.length : Int) := by omega
    have e : (c :: rest) ++ 47 :: base = c :: (rest ++ 47 :: base) := rfl
    rw [e, LastIndex]
    simp only [ih, h0, if_true, List.length_cons]
    omega

/-- A token made of a root (empty or ending in `/`) and a base without `/` splits into
them. -/
theorem pathSplit_root_base (root base : GoString)
    (hroot : root = [] ∨ root.getLast? = some 47) (hbase : 47 ∉ base) :
    pathSplit (root ++ base) = (root, base) := by
  unfold pathSplit
  rcases hroot with h | h
  · subst h
    simp [LastIndex_slash_none base hbase]
  · obtain ⟨pre, rfl⟩ : ∃ pre, root = pre ++ [47] := by
      rcases List.eq_nil_or_concat root with h0 | ⟨pre, x, h1⟩
      · rw [h0] at h; simp at h
      · rw [h1] at h
        simp at h
        exact ⟨pre, by rw [h1, h, List.concat_eq_append]⟩
    have e : pre ++ [47] ++ base = pre ++ 47 :: base := by simp
    have e2 : ((pre.length : Int) + 1).toNat = (pre ++ [47]).length := by
      rw [List.length_append, List.length_singleton]
      omega
    rw [e, LastIndex_slash_append pre base hbase]
    simp only
    rw [e2, ← e, List.take_left' rfl, List.drop_left' rfl]

theorem isDir_root_base (root base : GoString) (hne : base ≠ []) (hbase : 47 ∉ base) :
    isDir (root ++ base) = false := by
  unfold isDir PathSeparator
  have hl : (root ++ base).getLast? = base.getLast? := by
    rw [List.getLast?_append, Option.or_of_isSome]
    cases base with
    | nil => exact absurd rfl hne
    | cons c t => simp [List.getLast?_cons_cons, List.getLast?_isSome]
  have hn : base.getLast? ≠ some 47 := by
    intro h
    exact hbase (List.mem_of_getLast?_eq_some h)
  simp [hl, hn]

theorem tokenRoot_root_base (root base : GoString)
    (hroot : root = [] ∨ root.getLast? = some 47) (hne : base ≠ []) (hbase : 47 ∉ base) :
    tokenRoot (root ++ base) = root ∧ tokenBase (root ++ base) = base := by
  unfold tokenRoot tokenBase
  rw [isDir_root_base root base hne hbase, pathSplit_root_base root base hroot hbase]
  simp

theorem tokenRoot_root (root : GoString) (hroot : root = [] ∨ root.getLast? = some 47) :
    tokenRoot root = root ∧ tokenBase root = [] := by
  unfold tokenRoot tokenBase
  rcases hroot with h | h
  · subst h
    decide
  · have hd : isDir root = true := by
      unfold isDir PathSeparator
      cases root with
      | nil => simp at h
      | cons c t => simp [h]
    simp [hd]

theorem line_cancel (root d d1 : GoString) (m m1 : Nat)
    (h : root ++ d ++ [m] = root ++ d1 ++ [m1]) : d = d1 ∧ m = m1 := by
  rw [List.append_assoc, List.append_assoc] at h
  have h1 := List.append_cancel_left h
  have h2 := List.append_inj' h1 rfl
  exact ⟨h2.1, by simpa using h2.2⟩

theorem SplitList_filter (p : GoString) :
    (SplitList p).filter (fun dir => dir ≠ []) = (Split p 58).filter (fun dir => dir ≠ []) := by
  unfold SplitList
  by_cases h : p = []
  · subst h
    simp [Split]
  · simp [h]

/-! ## Lemmas on the lines printed -/

theorem handleDefault_eq (E : Env) (fuel : Nat) : ∀ (t : tokenizer)
    (cs : List GoString) (tok : GoString), nextUntilLive fuel t = some (cs, tok) →
    handleDefault E fuel t = some (suggestPackages E tok ++ (suggestPaths E tok).1) := by
  induction fuel with
  | zero => intro t cs tok h; simp [nextUntilLive] at h
  | succ fuel ih =>
    intro t cs tok h
    unfold nextUntilLive at h
    unfold handleDefault
    rcases hN : tokenizer.Next t with ⟨tok1, old, t1⟩
    rw [hN] at h
    cases old with
    | true =>
      simp only [Option.map_eq_some'] at h
      obtain ⟨⟨cs1, tok2⟩, h1, h2⟩ := h
      simp only [Prod.mk.injEq] at h2
      obtain ⟨rfl, rfl⟩ := h2
      simpa using ih t1 cs1 tok2 h1
    | false =>
      simp only [Option.some.injEq, Prod.mk.injEq] at h
      obtain ⟨rfl, rfl⟩ := h
      rfl

theorem nextUntilLive_of_handleDoc (E : Env) (fuel : Nat) : ∀ (g : Globals) (t : tokenizer)
    (out : List GoString), handleDoc E fuel g t = some out →
    ∃ cs tok, nextUntilLive fuel t = some (cs, tok) := by
  induction fuel with
  | zero => intro g t out h; simp [handleDoc] at h
  | succ fuel ih =>
    intro g t out h
    unfold handleDoc at h
    unfold nextUntilLive
    rcases hN : tokenizer.Next t with ⟨tok1, old, t1⟩
    rw [hN] at h
    cases old with
    | true =>
      obtain ⟨cs, tok, hc⟩ := ih _ t1 out h
      exact ⟨tok1 :: cs, tok, by simp [hc]⟩
    | false => exact ⟨[], tok1, rfl⟩

theorem nextUntilLive_of_handleDefault (E : Env) (fuel : Nat) : ∀ (t : tokenizer)
    (out : List GoString), handleDefault E fuel t = some out →
    ∃ cs tok, nextUntilLive fuel t = some (cs, tok) := by
  induction fuel with
  | zero => intro t out h; simp [handleDefault] at h
  | succ fuel ih =>
    intro t out h
    unfold handleDefault at h
    unfold nextUntilLive
    rcases hN : tokenizer.Next t with ⟨tok1, old, t1⟩
    rw [hN] at h
    cases old with
    | true =>
      obtain ⟨cs, tok, hc⟩ := ih t1 out h
      exact ⟨tok1 :: cs, tok, by simp [hc]⟩
    | false => exact ⟨[], tok1, rfl⟩

/-- A line of `suggestSymbol` is the typed text followed by more text and one space. -/
theorem suggestSymbol_line (U : Unicode) (g : Globals) (tokRoot tok name l : GoString)
    (h : l ∈ suggestSymbol U g tokRoot tok name) :
    ∃ rest : GoString, l = tokRoot ++ tok ++ rest ++ [32] := by
  rw [suggestSymbol_eq] at h
  split at h
  · cases h
  · split at h
    · rename_i hp
      obtain ⟨rest, hr⟩ := hp
      rw [List.mem_singleton] at h
      exact ⟨rest, by rw [h, ← hr]; simp⟩
    · split at h
      · split at h
        · cases h
        · rw [List.mem_singleton] at h
          exact ⟨_, h⟩
      · cases h

theorem suggestPackageContents_line (E : Env) (g : Globals) (pkgPath tokRoot tok l : GoString)
    (h : l ∈ (suggestPackageContents E g pkgPath tokRoot tok).2) :
    ∃ rest : GoString, l = tokRoot ++ tok ++ rest ++ [32] := by
  rw [suggestPackageContents_eq] at h
  split at h
  · cases h
  · split at h
    · cases h
    · simp only [List.mem_flatMap] at h
      obtain ⟨n, _, hn⟩ := h
      exact suggestSymbol_line _ _ _ _ _ _ hn

theorem suggestPackageContents_false (E : Env) (g : Globals) (pkgPath tokRoot tok : GoString)
    (h : (suggestPackageContents E g pkgPath tokRoot tok).1 = false) :
    (suggestPackageContents E g pkgPath tokRoot tok).2 = [] := by
  rw [suggestPackageContents_eq] at h ⊢
  cases hp : parsePackage E pkgPath with
  | none => rfl
  | some r =>
    obtain ⟨name, pkg⟩ := r
    rw [hp] at h
    simp only at h ⊢
    by_cases hn : name = str "main" ∧ g.showCmd = false
    · rw [if_pos hn]
    · rw [if_neg hn] at h
      cases h

theorem suggestPackageContents_true_iff (E : Env) (g : Globals) (pkgPath tokRoot tok : GoString) :
    (suggestPackageContents E g pkgPath tokRoot tok).1 = true ↔ Qualifies E g pkgPath := by
  rw [suggestPackageContents_eq]
  unfold Qualifies
  cases hp : parsePackage E pkgPath with
  | none => simp
  | some r =>
    obtain ⟨name, pkg⟩ := r
    simp only [Option.some.injEq, Prod.mk.injEq]
    by_cases hn : name = str "main" ∧ g.showCmd = false
    · rw [if_pos hn]
      simp only [Bool.false_eq_true, false_iff]
      rintro ⟨n1, p1, ⟨rfl, _⟩, h2⟩
      have := h2 hn.1
      rw [hn.2] at this
      cases this
    · rw [if_neg hn]
      simp only [true_iff]
      refine ⟨name, pkg, ⟨rfl, rfl⟩, fun h => ?_⟩
      cases hs : g.showCmd
      · exact absurd ⟨h, hs⟩ hn
      · rfl

theorem firstPackageContents_line (E : Env) (g : Globals) (tokRoot tok l : GoString) :
    ∀ paths : List GoString, l ∈ firstPackageContents E g tokRoot tok paths →
    ∃ rest : GoString, l = tokRoot ++ tok ++ rest ++ [32] := by
  intro paths
  induction paths with
  | nil => intro h; cases h
  | cons p ps ih =>
    intro h
    unfold firstPackageContents at h
    simp only at h
    split at h
    · exact suggestPackageContents_line _ _ _ _ _ _ h
    · rcases List.mem_append.1 h with h1 | h1
      · exact suggestPackageContents_line _ _ _ _ _ _ h1
      · exact ih h1

theorem suggestPackages_line (E : Env) (tok l : GoString) (h : l ∈ suggestPackages E tok) :
    ∃ (rest : GoString) (m : Nat), l = tok ++ rest ++ [m] ∧ (m = 47 ∨ m = 32) := by
  obtain ⟨_, _, d, _, hf, hl⟩ := (mem_suggestPackages E tok l).1 h
  obtain ⟨rest, hr⟩ := ((passesFilters_iff _ _).1 hf).1
  have e : tokenRoot tok ++ d = tok ++ rest := by
    rw [← hr, ← List.append_assoc, tokenRoot_append_tokenBase]
  rcases hl with ⟨_, hl⟩ | ⟨_, hl⟩
  · exact ⟨rest, 32, by rw [hl, e], Or.inr rfl⟩
  · exact ⟨rest, 47, by rw [hl, e], Or.inl rfl⟩

theorem suggestPaths_line (E : Env) (tok l : GoString) (h : l ∈ (suggestPaths E tok).1) :
    ∃ (rest : GoString) (m : Nat), l = tok ++ rest ++ [m] ∧ (m = 47 ∨ m = 32) := by
  obtain ⟨fi, _, hf, hl⟩ := (mem_suggestPaths E tok l).1 h
  obtain ⟨rest, hr⟩ := ((passesFilters_iff _ _).1 hf).1
  have e : tokenRoot tok ++ fi.Name = tok ++ rest := by
    rw [← hr, ← List.append_assoc, tokenRoot_append_tokenBase]
  refine ⟨rest, _, by rw [hl, e], ?_⟩
  cases fi.IsDir <;> simp

/-- A line of the `else` branch of `handleDoc` is the token under the cursor followed by
more text and one marker. -/
theorem docLive_line (E : Env) (g : Globals) (tok l : GoString) (h : l ∈ docLive E g tok) :
    ∃ (rest : GoString) (m : Nat), l = tok ++ rest ++ [m] ∧ (m = 47 ∨ m = 32) := by
  have sym : ∀ (a b : GoString), a ++ b = tok →
      (∃ rest : GoString, l = a ++ b ++ rest ++ [32]) →
      ∃ (rest : GoString) (m : Nat), l = tok ++ rest ++ [m] ∧ (m = 47 ∨ m = 32) := by
    rintro a b hab ⟨rest, hr⟩
    exact ⟨rest, 32, by rw [hr, hab], Or.inr rfl⟩
  unfold docLive at h
  split at h
  · simp only [List.mem_flatMap] at h
    obtain ⟨s, _, hs⟩ := h
    split at hs
    · rename_i hi
      obtain ⟨rest, hr⟩ := (Index_eq_zero_iff s tok).1 hi
      rw [List.mem_singleton] at hs
      exact ⟨rest, 32, by rw [hs, ← hr], Or.inr rfl⟩
    · cases hs
  · split at h
    · simp only [List.mem_append] at h
      rcases h with (h | h) | h
      · apply sym [] tok rfl
        split at h
        · exact suggestPackageContents_line _ _ _ _ _ _ h
        · cases h
      · split at h
        · exact suggestPackages_line E tok l h
        · cases h
      · split at h
        · exact sym _ _ (List.take_append_drop _ tok) (firstPackageContents_line _ _ _ _ _ _ h)
        · cases h
    · exact sym [] tok rfl (firstPackageContents_line _ _ _ _ _ _ h)
    · cases h

theorem firstPackageContents_of_none (E : Env) (g : Globals) (tokRoot tok : GoString) :
    ∀ paths : List GoString, (∀ q, q ∈ paths → ¬ Qualifies E g q) →
    firstPackageContents E g tokRoot tok paths = [] := by
  intro paths
  induction paths with
  | nil => intro _; rfl
  | cons p ps ih =>
    intro h
    have hp : (suggestPackageContents E g p tokRoot tok).1 = false := by
      cases hb : (suggestPackageContents E g p tokRoot tok).1
      · rfl
      · exact absurd ((suggestPackageContents_true_iff E g p tokRoot tok).1 hb)
          (h p (List.mem_cons_self _ _))
    unfold firstPackageContents
    simp only [hp, Bool.false_eq_true, if_false, suggestPackageContents_false E g p tokRoot tok hp,
      List.nil_append]
    exact ih (fun q hq => h q (List.mem_cons_of_mem _ hq))

theorem firstPackageContents_of_first (E : Env) (g : Globals) (tokRoot tok : GoString) :
    ∀ (pre : List GoString) (p : GoString) (post : List GoString),
    (∀ q, q ∈ pre → ¬ Qualifies E g q) → Qualifies E g p →
    firstPackageContents E g tokRoot tok (pre ++ p :: post)
      = (suggestPackageContents E g p tokRoot tok).2 := by
  intro pre
  induction pre with
  | nil =>
    intro p post _ hq
    have hp := (suggestPackageContents_true_iff E g p tokRoot tok).2 hq
    simp only [List.nil_append]
    unfold firstPackageContents
    simp only [hp, if_true]
  | cons a pre ih =>
    intro p post h hq
    have ha : (suggestPackageContents E g a tokRoot tok).1 = false := by
      cases hb : (suggestPackageContents E g a tokRoot tok).1
      · rfl
      · exact absurd ((suggestPackageContents_true_iff E g a tokRoot tok).1 hb)
          (h a (List.mem_cons_self _ _))
    have e : (a :: pre) ++ p :: post = a :: (pre ++ p :: post) := rfl
    rw [e, firstPackageContents]
    simp only [ha, Bool.false_eq_true, if_false, suggestPackageContents_false E g a tokRoot tok ha,
      List.nil_append]
    exact ih p post (fun q hq1 => h q (List.mem_cons_of_mem _ hq1)) hq

/-- What a run of `main` prints: nothing with status 1 when there is no tokenizer; otherwise,
with status 0, lines that are the token under the cursor followed by more text and one
marker. -/
theorem main_run (fuel : Nat) (E : Env) (run : Run) (h : main fuel E = some run) :
    (newTokenizer E = none ∧ run = ⟨[], 1⟩)
    ∨ ∃ (t : tokenizer) (cs : List GoString) (live : GoString), newTokenizer E = some t
        ∧ nextUntilLive (fuel + 1) t = some (cs, live) ∧ run.status = 0
        ∧ ∀ l, l ∈ run.stdout →
            ∃ (rest : GoString) (m : Nat), l = live ++ rest ++ [m] ∧ (m = 47 ∨ m = 32) := by
  unfold main at h
  cases hnew : newTokenizer E with
  | none =>
    rw [hnew] at h
    simp only [Option.some.injEq] at h
    exact Or.inl ⟨rfl, h.symm⟩
  | some t =>
    right
    rw [hnew] at h
    simp only at h
    rcases hN : tokenizer.Next t with ⟨tok, old, t1⟩
    rw [hN] at h
    cases old with
    | false =>
      simp only [Option.some.injEq] at h
      subst h
      refine ⟨t, [], tok, rfl, by simp [nextUntilLive, hN], rfl, ?_⟩
      intro l hl
      simp only [List.mem_flatMap] at hl
      obtain ⟨tool, _, hl⟩ := hl
      split at hl
      · rename_i hi
        obtain ⟨rest, hr⟩ := (Index_eq_zero_iff tool tok).1 hi
        rw [List.mem_singleton] at hl
        exact ⟨rest, 32, by rw [hl, ← hr], Or.inr rfl⟩
      · cases hl
    | true =>
      simp only at h
      by_cases hdoc : tok = str "doc"
      · rw [if_pos hdoc] at h
        simp only [Option.map_eq_some'] at h
        obtain ⟨out, hout, hrun⟩ := h
        obtain ⟨cs, live, hc⟩ := nextUntilLive_of_handleDoc E fuel _ t1 out hout
        have ho := handleDoc_eq E fuel Globals.init t1 cs live hc
        rw [hout] at ho
        simp only [Option.some.injEq] at ho
        subst hrun
        refine ⟨t, tok :: cs, live, rfl, by simp [nextUntilLive, hN, hc], rfl, ?_⟩
        intro l hl
        simp only at hl
        rw [ho] at hl
        exact docLive_line E _ live l hl
      · rw [if_neg hdoc] at h
        simp only [Option.map_eq_some'] at h
        obtain ⟨out, hout, hrun⟩ := h
        obtain ⟨cs, live, hc⟩ := nextUntilLive_of_handleDefault E fuel t1 out hout
        have ho := handleDefault_eq E fuel t1 cs live hc
        rw [hout] at ho
        simp only [Option.some.injEq] at ho
        subst hrun
        refine ⟨t, tok :: cs, live, rfl, by simp [nextUntilLive, hN, hc], rfl, ?_⟩
        intro l hl
        simp only at hl
        rw [ho] at hl
        rcases List.mem_append.1 hl with h1 | h1
        · exact suggestPackages_line E live l h1
        · exact suggestPaths_line E live l h1

/-! ## Lemmas on `simpleFold` -/

/-- Under the cycle assumption `simpleFold` returns the least rune of the cycle. -/
theorem simpleFold_least (U : Unicode) (C : Nat → Nat → Prop) (hC : FoldCycles U C) :
    ∀ (n r : Nat), 2147483648 - r ≤ n → r < 2147483648 →
      C r (simpleFold U r) ∧ ∀ s, C r s → simpleFold U r ≤ s := by
  intro n
  induction n with
  | zero => intro r h1 h2; omega
  | succ n ih =>
    intro r h1 h2
    rw [simpleFold_unfold]
    by_cases hle : U.SimpleFold r ≤ r
    · rw [if_pos hle]
      refine ⟨hC.next_mem r h2, fun s hs => ?_⟩
      apply hC.wrap r s h2 _ hs
      intro t ht
      by_contra hgt
      have := (hC.next_up r t h2 ht (by omega)).1
      omega
    · rw [if_neg hle]
      have hlt := U.SimpleFold_lt r
      obtain ⟨h3, h4⟩ := ih (U.SimpleFold r) (by omega) hlt
      have hm := hC.next_mem r h2
      exact ⟨hC.trans _ _ _ hm h3, fun s hs => h4 s (hC.trans _ _ _ (hC.symm _ _ hm) hs)⟩

theorem asciiFold_spec (r : Nat) :
    (r = 75 ∧ asciiFold r = 107) ∨ (r = 107 ∧ asciiFold r = 8490) ∨ (r = 8490 ∧ asciiFold r = 75)
    ∨ (r = 83 ∧ asciiFold r = 115) ∨ (r = 115 ∧ asciiFold r = 383) ∨ (r = 383 ∧ asciiFold r = 83)
    ∨ (65 ≤ r ∧ r ≤ 90 ∧ r ≠ 75 ∧ r ≠ 83 ∧ asciiFold r = r + 32)
    ∨ (97 ≤ r ∧ r ≤ 122 ∧ r ≠ 107 ∧ r ≠ 115 ∧ asciiFold r = r - 32)
    ∨ ((r < 65 ∨ (90 < r ∧ r < 97) ∨ 122 < r) ∧ r ≠ 8490 ∧ r ≠ 383 ∧ r < 2147483648
        ∧ asciiFold r = r)
    ∨ (2147483648 ≤ r ∧ asciiFold r = 0) := by
  by_cases a1 : r = 75
  · exact Or.inl ⟨a1, by rw [a1]; rfl⟩
  by_cases a2 : r = 107
  · exact Or.inr (Or.inl ⟨a2, by rw [a2]; rfl⟩)
  by_cases a3 : r = 8490
  · exact Or.inr (Or.inr (Or.inl ⟨a3, by rw [a3]; rfl⟩))
  by_cases a4 : r = 83
  · exact Or.inr (Or.inr (Or.inr (Or.inl ⟨a4, by rw [a4]; rfl⟩)))
  by_cases a5 : r = 115
  · exact Or.inr (Or.inr (Or.inr (Or.inr (Or.inl ⟨a5, by rw [a5]; rfl⟩))))
  by_cases a6 : r = 383
  · exact Or.inr (Or.inr (Or.inr (Or.inr (Or.inr (Or.inl ⟨a6, by rw [a6]; rfl⟩)))))
  by_cases a7 : 65 ≤ r ∧ r ≤ 90
  · refine Or.inr (Or.inr (Or.inr (Or.inr (Or.inr (Or.inr (Or.inl
      ⟨a7.1, a7.2, a1, a4, ?_⟩))))))
    unfold asciiFold
    rw [if_neg a1, if_neg a2, if_neg a3, if_neg a4, if_neg a5, if_neg a6, if_pos a7]
  by_cases a8 : 97 ≤ r ∧ r ≤ 122
  · refine Or.inr (Or.inr (Or.inr (Or.inr (Or.inr (Or.inr (Or.inr (Or.inl
      ⟨a8.1, a8.2, a2, a5, ?_⟩)))))))
    unfold asciiFold
    rw [if_neg a1, if_neg a2, if_neg a3, if_neg a4, if_neg a5, if_neg a6, if_neg a7, if_pos a8]
  by_cases a9 : r < 2147483648
  · refine Or.inr (Or.inr (Or.inr (Or.inr (Or.inr (Or.inr (Or.inr (Or.inr (Or.inl
      ⟨by omega, a3, a6, a9, ?_⟩))))))))
    unfold asciiFold
    rw [if_neg a1, if_neg a2, if_neg a3, if_neg a4, if_neg a5, if_neg a6, if_neg a7, if_neg a8,
      if_pos a9]
  · refine Or.inr (Or.inr (Or.inr (Or.inr (Or.inr (Or.inr (Or.inr (Or.inr (Or.inr
      ⟨by omega, ?_⟩))))))))
    unfold asciiFold
    rw [if_neg a1, if_neg a2, if_neg a3, if_neg a4, if_neg a5, if_neg a6, if_neg a7, if_neg a8,
      if_neg a9]

theorem asciiClass_spec (r : Nat) :
    ((r = 107 ∨ r = 8490) ∧ asciiClass r = 75) ∨ ((r = 115 ∨ r = 383) ∧ asciiClass r = 83)
    ∨ (97 ≤ r ∧ r ≤ 122 ∧ r ≠ 107 ∧ r ≠ 115 ∧ asciiClass r = r - 32)
    ∨ ((r < 97 ∨ 122 < r) ∧ r ≠ 8490 ∧ r ≠ 383 ∧ asciiClass r = r) := by
  by_cases a1 : r = 107 ∨ r = 8490
  · refine Or.inl ⟨a1, ?_⟩
    unfold asciiClass
    rw [if_pos a1]
  by_cases a2 : r = 115 ∨ r = 383
  · refine Or.inr (Or.inl ⟨a2, ?_⟩)
    unfold asciiClass
    rw [if_neg a1, if_pos a2]
  by_cases a3 : 97 ≤ r ∧ r ≤ 122
  · refine Or.inr (Or.inr (Or.inl ⟨a3.1, a3.2, by omega, by omega, ?_⟩))
    unfold asciiClass
    rw [if_neg a1, if_neg a2, if_pos a3]
  · refine Or.inr (Or.inr (Or.inr ⟨by omega, by omega, by omega, ?_⟩))
    unfold asciiClass
    rw [if_neg a1, if_neg a2, if_neg a3]

theorem asciiTables_cycles : FoldCycles asciiTables (fun a b => asciiClass a = asciiClass b) where
  refl := fun _ => rfl
  symm := fun _ _ h => h.symm
  trans := fun _ _ _ h1 h2 => h1.trans h2
  next_mem := by
    intro r hr
    show asciiClass r = asciiClass (asciiFold r)
    have h1 := asciiFold_spec r
    have h2 := asciiClass_spec r
    have h3 := asciiClass_spec (asciiFold r)
    omega
  next_up := by
    intro r s hr hc hlt
    change asciiClass r = asciiClass s at hc
    show r < asciiFold r ∧ asciiFold r ≤ s
    have h1 := asciiFold_spec r
    have h2 := asciiClass_spec r
    have h3 := asciiClass_spec s
    omega
  wrap := by
    intro r s hr hmax hc
    have h0 : asciiFold r ≤ r := by
      apply hmax
      show asciiClass r = asciiClass (asciiFold r)
      have h1 := asciiFold_spec r
      have h2 := asciiClass_spec r
      have h3 := asciiClass_spec (asciiFold r)
      omega
    change asciiClass r = asciiClass s at hc
    show asciiFold r ≤ s
    have h1 := asciiFold_spec r
    have h2 := asciiClass_spec r
    have h3 := asciiClass_spec s
    omega

/-! ## Lemmas on the termination of the token loops -/

theorem Split_spaces (i : Nat) (s : GoString) :
    Split (List.replicate i 32 ++ s) 32 = List.replicate i [] ++ Split s 32 := by
  induction i with
  | zero => simp
  | succ n ih =>
    have := Split_append_sep [] (List.replicate n 32 ++ s) 32 (by simp)
    simp only [List.nil_append] at this
    rw [List.replicate_succ, List.cons_append, this, ih, List.replicate_succ, List.cons_append]

theorem filter_replicate_nil (i : Nat) (l : List GoString) :
    (List.replicate i ([] : GoString) ++ l).filter (fun f => f ≠ []) = l.filter (fun f => f ≠ []) := by
  induction i with
  | zero => simp
  | succ n ih => simp [List.replicate_succ, ih]

theorem tokenCount_decomp (line : GoString) (i : Nat) (tok rest : GoString)
    (h : Decomp line i tok rest) :
    tokenCount line = (if tok = [] then 0 else 1) + tokenCount rest := by
  unfold tokenCount splitSpaces
  rw [h.eq, Split_spaces, filter_replicate_nil]
  rcases h.rest_space with hr | ⟨r, hr⟩
  · subst hr
    rw [List.append_nil, Split_no_sep tok 32 h.no_space]
    by_cases ht : tok = []
    · simp [ht, Split]
    · simp [ht, Split]
  · subst hr
    have e := Split_append_sep [] r 32 (by simp)
    simp only [List.nil_append] at e
    rw [Split_append_sep tok r 32 h.no_space, e]
    by_cases ht : tok = []
    · simp [ht]
    · simp [ht, List.filter_cons]
      omega

theorem Atoi_range (s : GoString) (v : Int) (h : Atoi s = some v) :
    -9223372036854775808 ≤ v ∧ v < 9223372036854775808 := by
  cases s with
  | nil => simp [Atoi] at h
  | cons c rest =>
    unfold Atoi at h
    simp only at h
    by_cases hb : (if c = 45 ∨ c = 43 then rest else c :: rest) = []
    · rw [if_pos hb] at h
      cases h
    · rw [if_neg hb] at h
      cases hd : atoiDigits (if c = 45 ∨ c = 43 then rest else c :: rest) 0 with
      | none =>
        rw [hd] at h
        cases h
      | some n =>
        rw [hd] at h
        simp only at h
        by_cases hr : (if decide (c = 45) = true then -(n : Int) else (n : Int)) < -9223372036854775808
            ∨ 9223372036854775807 < (if decide (c = 45) = true then -(n : Int) else (n : Int))
        · rw [if_pos hr] at h
          cases h
        · rw [if_neg hr] at h
          simp only [Option.some.injEq] at h
          rw [← h]
          omega

/-- The result of `Next` when the cursor is not beyond the first token: the cursor
arithmetic after the token does not matter. -/
theorem Next_live_of_decomp (line : GoString) (i : Nat) (tok rest : GoString) (point : Int)
    (e : Bool) (h : Decomp line i tok rest) (hlo : -9223372036854775808 ≤ point - i)
    (hhi : point < 9223372036854775808) (hle : point - i ≤ tok.length) :
    (tokenizer.Next ⟨line, point, e⟩).2 = (false, ⟨[], 0, e⟩) := by
  have hs : spaceRun line = i := by rw [h.eq]; exact spaceRun_decomp i tok rest h.no_space h.tok_nil
  have hd : line.drop i = tok ++ rest := by
    rw [h.eq, List.drop_left' (List.length_replicate i 32)]
  have ht : tokenRun (tok ++ rest) = tok.length := tokenRun_decomp tok rest h.no_space h.rest_space
  have hw1 : wrapInt (point - i) = point - i := wrapInt_of_range _ (by omega) (by omega)
  have hng : ¬ (point - (i : Int) > (tok.length : Int)) := by omega
  unfold tokenizer.Next
  simp only [hs, hd, ht, hw1, List.take_left', List.length_take]
  simp [hle, hng]

theorem Next_inBounds (t : tokenizer) (hb : InBounds t) :
    InBounds (tokenizer.Next t).2.2
    ∧ ((tokenizer.Next t).2.1 = true →
        (tokenizer.Next t).1 ≠ [] ∧ (tokenizer.Next t).2.2.line.length < t.line.length
          ∧ tokenCount (tokenizer.Next t).2.2.line + 1 = tokenCount t.line) := by
  obtain ⟨line, point, e⟩ := t
  obtain ⟨h1, h2, h3⟩ := hb
  simp only at h1 h2 h3
  obtain ⟨i, tok, rest, h⟩ := exists_decomp line
  have hl : line.length = i + (tok.length + rest.length) := by
    rw [h.eq]; simp
  have hN := Next_decomp line i tok rest point e h (by omega) (by omega)
  have hc := tokenCount_decomp line i tok rest h
  by_cases hp : point - (i : Int) ≤ (tok.length : Int)
  · rw [if_pos hp] at hN
    rw [hN]
    refine ⟨⟨by simp, by simp, by simp⟩, fun hf => ?_⟩
    simp at hf
  · rw [if_neg hp] at hN
    rw [hN]
    have htok : tok ≠ [] := by
      intro ht
      have := h.tok_nil ht
      simp [ht, this] at hl hp
      omega
    have htl : 0 < tok.length := List.length_pos.2 htok
    refine ⟨⟨?_, ?_, ?_⟩, fun _ => ⟨htok, ?_, ?_⟩⟩
    · simp only; omega
    · simp only; omega
    · simp only; omega
    · simp only; omega
    · simp only
      rw [hc, if_neg htok]
      omega

/-- The token loop ends within as many calls of `Next` as the line has tokens, plus one. -/
theorem nextUntilLive_terminates (fuel : Nat) : ∀ t : tokenizer, InBounds t →
    tokenCount t.line < fuel →
    ∃ cs live, nextUntilLive fuel t = some (cs, live) ∧ cs.length ≤ tokenCount t.line := by
  induction fuel with
  | zero => intro t _ h; omega
  | succ fuel ih =>
    intro t hb hf
    obtain ⟨hb1, hold⟩ := Next_inBounds t hb
    unfold nextUntilLive
    rcases hN : tokenizer.Next t with ⟨tok, old, t1⟩
    rw [hN] at hb1 hold
    simp only at hb1 hold
    cases old with
    | false => exact ⟨[], tok, rfl, Nat.zero_le _⟩
    | true =>
      obtain ⟨_, _, hcount⟩ := hold rfl
      obtain ⟨cs, live, hc, hlen⟩ := ih t1 hb1 (by omega)
      refine ⟨tok :: cs, live, by simp [hc], ?_⟩
      simp only [List.length_cons]
      omega

theorem nextUntilLive_stuck (m : Int) (e : Bool) (hm : 0 < m) (hm2 : m < 9223372036854775808) :
    ∀ fuel : Nat, nextUntilLive fuel ⟨[], m, e⟩ = none := by
  have hN : tokenizer.Next ⟨[], m, e⟩ = ([], true, ⟨[], m, e⟩) := by
    have hw : wrapInt m = m := wrapInt_of_range m (by omega) hm2
    have hd : ¬ m ≤ 0 := by omega
    simp [tokenizer.Next, spaceRun, tokenRun, hw, hd, hm]
  intro fuel
  induction fuel with
  | zero => rfl
  | succ n ih =>
    unfold nextUntilLive
    rw [hN]
    simp [ih]

theorem newTokenizer_inBounds (E : Env) (t : tokenizer) (h : newTokenizer E = some t)
    (hlen : E.COMP_LINE.length < 9223372036854775808) :
    0 ≤ t.point ∧ InBounds t := by
  unfold newTokenizer at h
  simp only at h
  cases hA : Atoi E.COMP_POINT with
  | none => rw [hA] at h; cases h
  | some point =>
    rw [hA] at h
    simp only at h
    obtain ⟨hr1, hr2⟩ := Atoi_range _ _ hA
    split at h
    · cases h
    · rename_i hcond
      simp only [not_or, not_not, gt_iff_lt, not_lt] at hcond
      obtain ⟨hp, hidx⟩ := hcond
      simp only [Option.some.injEq] at h
      obtain ⟨rest, hrest⟩ := (Index_eq_zero_iff _ _).1 hidx
      have hcmd : cmd ++ str " " = [103, 111, 32] := by decide
      rw [hcmd] at hrest
      have hdec : Decomp E.COMP_LINE 0 [103, 111] (32 :: rest) :=
        ⟨by rw [← hrest]; rfl, by decide, Or.inr ⟨rest, rfl⟩, by simp⟩
      have hl : E.COMP_LINE.length = rest.length + 3 := by rw [← hrest]; simp
      by_cases hle : point - ((0 : Nat) : Int) ≤ (([103, 111] : GoString).length : Int)
      · have := Next_live_of_decomp E.COMP_LINE 0 [103, 111] (32 :: rest) point false hdec
          (by omega) hr2 hle
        rw [← h, this]
        exact ⟨by simp, by simp, by simp, by simp⟩
      · have hN := Next_decomp E.COMP_LINE 0 [103, 111] (32 :: rest) point false hdec
          (by simp at hle ⊢; omega) hr2
        rw [if_neg hle] at hN
        rw [← h, hN]
        simp only [List.length_cons, List.length_nil] at hle ⊢
        refine ⟨by omega, ⟨by simp only [List.length_cons]; omega,
          by simp only [List.length_cons]; omega, by simp only [List.length_cons]; omega⟩⟩

theorem main_terminates (E : Env) (t : tokenizer) (h : newTokenizer E = some t)
    (hb : InBounds t) (fuel : Nat) (hf : tokenCount t.line ≤ fuel) :
    ∃ run, main fuel E = some run := by
  obtain ⟨cs, live, hc, _⟩ := nextUntilLive_terminates (fuel + 1) t hb (by omega)
  unfold nextUntilLive at hc
  unfold main
  rw [h]
  simp only
  rcases hN : tokenizer.Next t with ⟨tok, old, t1⟩
  rw [hN] at hc
  cases old with
  | false => exact ⟨_, rfl⟩
  | true =>
    simp only [Option.map_eq_some'] at hc
    obtain ⟨⟨cs1, live1⟩, h1, _⟩ := hc
    simp only
    by_cases hdoc : tok = str "doc"
    · rw [if_pos hdoc, handleDoc_eq E fuel Globals.init t1 cs1 live1 h1]
      exact ⟨_, rfl⟩
    · rw [if_neg hdoc, handleDefault_eq E fuel t1 cs1 live1 h1]
      exact ⟨_, rfl⟩

/-! ## The token under the cursor as typed -/

theorem nextUntilLive_mono (fuel : Nat) : ∀ (t : tokenizer) (r : List GoString × GoString),
    nextUntilLive fuel t = some r → ∀ k : Nat, nextUntilLive (fuel + k) t = some r := by
  induction fuel with
  | zero => intro t r h; simp [nextUntilLive] at h
  | succ fuel ih =>
    intro t r h k
    have e : fuel + 1 + k = (fuel + k) + 1 := by omega
    rw [e]
    unfold nextUntilLive at h ⊢
    rcases hN : tokenizer.Next t with ⟨tok, old, t1⟩
    rw [hN] at h
    cases old with
    | false => exact h
    | true =>
      simp only [Option.map_eq_some'] at h ⊢
      obtain ⟨r1, h1, h2⟩ := h
      exact ⟨r1, ih t1 r1 h1 k, h2⟩

/-- What `newTokenizer` accepts: the cursor text is an integer `p` at most the length of the
line, the line begins with `go `, and the tokenizer is the state after one call of `Next`
on the whole line. -/
theorem newTokenizer_some (E : Env) (t : tokenizer) (h : newTokenizer E = some t) :
    ∃ (p : Int) (rest : GoString), Atoi E.COMP_POINT = some p
      ∧ p ≤ (E.COMP_LINE.length : Int) ∧ E.COMP_LINE = [103, 111, 32] ++ rest
      ∧ t = (tokenizer.Next ⟨E.COMP_LINE, p, false⟩).2.2 := by
  unfold newTokenizer at h
  simp only at h
  cases hA : Atoi E.COMP_POINT with
  | none => rw [hA] at h; cases h
  | some point =>
    rw [hA] at h
    simp only at h
    split at h
    · cases h
    · rename_i hcond
      simp only [not_or, not_not, gt_iff_lt, not_lt] at hcond
      obtain ⟨hp, hidx⟩ := hcond
      simp only [Option.some.injEq] at h
      obtain ⟨rest, hrest⟩ := (Index_eq_zero_iff _ _).1 hidx
      have hcmd : cmd ++ str " " = [103, 111, 32] := by decide
      rw [hcmd] at hrest
      exact ⟨point, rest, rfl, hp, hrest.symm, h.symm⟩

theorem Decomp_command (line rest : GoString) (h : line = [103, 111, 32] ++ rest) :
    Decomp line 0 [103, 111] (32 :: rest) :=
  ⟨by rw [h]; rfl, by decide, Or.inr ⟨rest, rfl⟩, by simp⟩

/-- With the cursor beyond the command word, the token that the run completes is the text
typed after the last space before the cursor. -/
theorem live_token_as_typed (E : Env) (t : tokenizer) (p : Int) (fuel : Nat)
    (cs : List GoString) (live : GoString) (hnew : newTokenizer E = some t)
    (hA : Atoi E.COMP_POINT = some p) (hp : 2 < p)
    (hlen : E.COMP_LINE.length < 9223372036854775808)
    (hlive : nextUntilLive fuel t = some (cs, live)) :
    live = liveText (E.COMP_LINE.take p.toNat) := by
  obtain ⟨p1, rest, hA1, hple, hline, ht⟩ := newTokenizer_some E t hnew
  rw [hA] at hA1
  simp only [Option.some.injEq] at hA1
  subst hA1
  have hdec := Decomp_command E.COMP_LINE rest hline
  have hN := Next_decomp E.COMP_LINE 0 [103, 111] (32 :: rest) p false hdec
    (by simp only [List.length_cons, List.length_nil]; omega) (by omega)
  have hgt : ¬ p - ((0 : Nat) : Int) ≤ (([103, 111] : GoString).length : Int) := by
    simp only [List.length_cons, List.length_nil]
    omega
  rw [if_neg hgt] at hN
  have hfull : nextUntilLive (fuel + 1) ⟨E.COMP_LINE, p, false⟩ = some ([103, 111] :: cs, live) := by
    rw [hN] at ht
    simp only at ht
    unfold nextUntilLive
    rw [hN]
    simp only
    rw [← ht, hlive]
    rfl
  have hm := nextUntilLive_mono (fuel + 1) _ _ hfull (E.COMP_LINE.length + 1)
  have hpn : ((p.toNat : Nat) : Int) = p := by omega
  have hspec := nextUntilLive_eq (fuel + 1 + (E.COMP_LINE.length + 1)) E.COMP_LINE p.toNat false
    (by omega) hlen (by omega)
  rw [hpn, hm] at hspec
  simp only [Option.some.injEq, Prod.mk.injEq] at hspec
  exact hspec.2

/-- With the cursor inside the command word, `newTokenizer` returns the exhausted
tokenizer and `main` prints every tool. -/
theorem main_cursor_in_command (E : Env) (t : tokenizer) (p : Int) (fuel : Nat)
    (hnew : newTokenizer E = some t) (hA : Atoi E.COMP_POINT = some p) (hp : p ≤ 2) :
    t = ⟨[], 0, false⟩
    ∧ main fuel E = some ⟨tools.map (fun tool => tool ++ [32]), 0⟩ := by
  obtain ⟨p1, rest, hA1, hple, hline, ht⟩ := newTokenizer_some E t hnew
  rw [hA] at hA1
  simp only [Option.some.injEq] at hA1
  subst hA1
  obtain ⟨hr1, hr2⟩ := Atoi_range _ _ hA
  have hdec := Decomp_command E.COMP_LINE rest hline
  have hN := Next_live_of_decomp E.COMP_LINE 0 [103, 111] (32 :: rest) p false hdec
    (by omega) hr2 (by simp only [List.length_cons, List.length_nil]; omega)
  have ht0 : t = ⟨[], 0, false⟩ := by rw [ht, hN]
  refine ⟨ht0, ?_⟩
  unfold main
  rw [hnew, ht0]
  simp only [Next_exhausted]
  rfl

/-! ## The claims -/

/-- C1: for every line and every offset with `0 ≤ offset ≤ len(line)`, calling `Next` on the
state `(line, offset)` until it reports `old = false` returns, as the tokens reported with
`old = true`, in order, exactly the non-empty space-separated fields of `line[:offset]`
that are followed by a space inside `line[:offset]`, and as the final token exactly the
text of `line[:offset]` after its last space.  Every bound on the number of calls above
`len(line)` is enough. -/
theorem tokenizer_returns_prefix_fields (line : GoString) (offset : Nat) (e : Bool)
    (fuel : Nat) (hoff : offset ≤ line.length) (hlen : line.length < 9223372036854775808)
    (hfuel : line.length < fuel) :
    nextUntilLive fuel ⟨line, (offset : Int), e⟩
      = some (committedFields (line.take offset), liveText (line.take offset)) :=
  nextUntilLive_eq fuel line offset e hoff hlen hfuel

/-- Witness of C1: the line `go doc fm` with the cursor at 9, at 8 and at 0. -/
theorem tokenizer_returns_prefix_fields_witness :
    nextUntilLive 10 ⟨str "go doc fm", 9, false⟩ = some ([str "go", str "doc"], str "fm")
    ∧ nextUntilLive 10 ⟨str "go doc fm", 8, false⟩ = some ([str "go", str "doc"], str "f")
    ∧ nextUntilLive 10 ⟨str "go doc fm", 0, false⟩ = some ([], []) :=
  ⟨(tokenizer_returns_prefix_fields (str "go doc fm") 9 false 10
      (by decide) (by decide) (by decide)).trans (by decide),
   (tokenizer_returns_prefix_fields (str "go doc fm") 8 false 10
      (by decide) (by decide) (by decide)).trans (by decide),
   (tokenizer_returns_prefix_fields (str "go doc fm") 0 false 10
      (by decide) (by decide) (by decide)).trans (by decide)⟩

/-- C2: for every tokenizer state, once a call to `Next` reports `old = false` the remaining
line is empty and the cursor is 0, and after any number of further calls `Next` still
returns the empty token with `old = false` and leaves that state unchanged. -/
theorem tokenizer_exhausted_after_live (t : tokenizer) (tok : GoString) (t1 : tokenizer)
    (h : tokenizer.Next t = (tok, false, t1)) :
    t1.line = [] ∧ t1.point = 0
      ∧ ∀ n : Nat, tokenizer.Next (afterCalls n t1) = ([], false, t1) := by
  have h1 : (tokenizer.Next t).2.2 = ⟨[], 0, t.end⟩ := Next_live_state t (by rw [h])
  rw [h] at h1
  simp only at h1
  subst h1
  refine ⟨rfl, rfl, fun n => ?_⟩
  rw [afterCalls_exhausted, Next_exhausted]

/-- Witness of C2: the cursor inside `bui` of `bui ld`, the text ` ld` after it is dropped. -/
theorem tokenizer_exhausted_after_live_witness :
    tokenizer.Next ⟨str "bui ld", 2, false⟩ = (str "bu", false, ⟨[], 0, false⟩)
    ∧ tokenizer.Next (afterCalls 3 ⟨[], 0, false⟩) = ([], false, ⟨[], 0, false⟩) :=
  ⟨by decide,
   (tokenizer_exhausted_after_live ⟨str "bui ld", 2, false⟩ (str "bu") ⟨[], 0, false⟩
      (by decide)).2.2 3⟩

/-- C3, as the claim states it, fails: on the line `go doc` the offset text `-1` is not a
non-negative integer, and yet `newTokenizer` returns a tokenizer. -/
theorem newTokenizer_accepts_negative_offset :
    ¬ (newTokenizer (bareEnv (str "go doc") (str "-1")) = none ↔
        (¬ str "go " <+: (bareEnv (str "go doc") (str "-1")).COMP_LINE
          ∨ ¬ ∃ n : Nat, Atoi (bareEnv (str "go doc") (str "-1")).COMP_POINT = some (n : Int)
              ∧ n ≤ (bareEnv (str "go doc") (str "-1")).COMP_LINE.length)) := by
  intro h
  have h1 : newTokenizer (bareEnv (str "go doc") (str "-1")) = some ⟨[], 0, false⟩ := by decide
  have h2 : Atoi (bareEnv (str "go doc") (str "-1")).COMP_POINT = some (-1) := by decide
  have h3 := h.2 (Or.inr (by
    rintro ⟨n, hn, _⟩
    rw [h2] at hn
    simp only [Option.some.injEq] at hn
    omega))
  rw [h1] at h3
  cases h3

/-- C3, amended: `newTokenizer` returns no tokenizer exactly when the line does not begin
with `go ` or the offset text is not an integer (`Atoi` fails) or is an integer greater
than `len(line)`; a negative offset is accepted on every line that begins with `go `. -/
theorem newTokenizer_none_iff (E : Env) :
    (newTokenizer E = none ↔
      (¬ str "go " <+: E.COMP_LINE ∨ Atoi E.COMP_POINT = none
        ∨ ∃ v : Int, Atoi E.COMP_POINT = some v ∧ (E.COMP_LINE.length : Int) < v))
    ∧ ∀ v : Int, Atoi E.COMP_POINT = some v → v < 0 → str "go " <+: E.COMP_LINE →
        newTokenizer E ≠ none := by
  have hcmd : cmd ++ str " " = str "go " := by decide
  have key : newTokenizer E = none ↔
      (¬ str "go " <+: E.COMP_LINE ∨ Atoi E.COMP_POINT = none
        ∨ ∃ v : Int, Atoi E.COMP_POINT = some v ∧ (E.COMP_LINE.length : Int) < v) := by
    unfold newTokenizer
    rw [hcmd]
    cases hA : Atoi E.COMP_POINT with
    | none => simp
    | some v =>
      simp only [ne_eq, Index_eq_zero_iff, gt_iff_lt]
      by_cases h1 : (E.COMP_LINE.length : Int) < v
      · simp [h1]
      · by_cases h2 : str "go " <+: E.COMP_LINE
        · simp [h1, h2]
        · simp [h2]
  refine ⟨key, fun v hv hneg hp => ?_⟩
  rw [ne_eq, key]
  rintro (h | h | ⟨w, hw, hlt⟩)
  · exact h hp
  · rw [hv] at h; cases h
  · rw [hv] at hw
    cases hw
    omega

/-- Witness of C3, amended: the offset text `-1` on the line `go doc` yields a tokenizer,
the offset text `7` (beyond the end) and the line `gofmt` (no `go ` in front) yield none. -/
theorem newTokenizer_none_iff_witness :
    newTokenizer (bareEnv (str "go doc") (str "-1")) ≠ none
    ∧ newTokenizer (bareEnv (str "go doc") (str "7")) = none
    ∧ newTokenizer (bareEnv (str "gofmt") (str "2")) = none :=
  ⟨(newTokenizer_none_iff (bareEnv (str "go doc") (str "-1"))).2 (-1) (by decide) (by decide)
      (by decide),
   (newTokenizer_none_iff (bareEnv (str "go doc") (str "7"))).1.2
      (Or.inr (Or.inr ⟨7, by decide, by decide⟩)),
   (newTokenizer_none_iff (bareEnv (str "gofmt") (str "2"))).1.2 (Or.inl (by decide))⟩

/-- C4: for every accepted command line whose token after `go` is the token under the
cursor, the program prints exactly the entries of `tools` that have that token as a
literal prefix, in the order of `tools`, each followed by one space, and exits with
status 0. -/
theorem main_suggests_tools (fuel : Nat) (E : Env) (t : tokenizer) (tok : GoString)
    (t1 : tokenizer) (hnew : newTokenizer E = some t) (hlive : tokenizer.Next t = (tok, false, t1)) :
    main fuel E = some ⟨(tools.filter (fun tool => tok.isPrefixOf tool)).map (fun tool => tool ++ [32]), 0⟩ := by
  unfold main
  rw [hnew]
  simp only [hlive]
  rw [← flatMap_ite_singleton]
  congr 2
  apply List.flatMap_congr
  intro tool _
  by_cases h : tok <+: tool
  · simp [(Index_eq_zero_iff tool tok).2 h, List.isPrefixOf_iff_prefix.2 h]
  · have h1 : ¬ Index tool tok = 0 := fun hi => h ((Index_eq_zero_iff tool tok).1 hi)
    have h2 : ¬ tok.isPrefixOf tool = true := fun hi => h (List.isPrefixOf_iff_prefix.1 hi)
    simp [h1, h2]

/-- Witness of C4: the line `go bui` with the cursor at its end prints the one line `build `. -/
theorem main_suggests_tools_witness :
    main 0 (bareEnv (str "go bui") (str "6")) = some ⟨[str "build "], 0⟩ :=
  (main_suggests_tools 0 (bareEnv (str "go bui") (str "6")) ⟨str " bui", 4, false⟩ (str "bui")
    ⟨[], 0, false⟩ (by decide) (by decide)).trans (by decide)

/-- C5: in documentation mode, whenever the token under the cursor begins with `-`,
`handleDoc` prints exactly those of `-u`, `-c`, `-cmd`, in that order, that have the token
as a literal prefix, each followed by one space, and nothing else, whatever options and
arguments precede the cursor.  Every bound on the recursion above `len(line)` is enough. -/
theorem handleDoc_suggests_options (E : Env) (g : Globals) (line : GoString) (offset : Nat)
    (e : Bool) (fuel : Nat) (hoff : offset ≤ line.length)
    (hlen : line.length < 9223372036854775808) (hfuel : line.length < fuel)
    (hdash : str "-" <+: liveText (line.take offset)) :
    handleDoc E fuel g ⟨line, (offset : Int), e⟩
      = some (([str "-u", str "-c", str "-cmd"].filter
          (fun s => (liveText (line.take offset)).isPrefixOf s)).map (fun s => s ++ [32])) := by
  rw [handleDoc_eq E fuel g _ _ _ (nextUntilLive_eq fuel line offset e hoff hlen hfuel)]
  unfold docLive
  rw [if_pos ((Index_eq_zero_iff _ _).2 hdash), ← flatMap_ite_singleton]
  congr 1
  apply List.flatMap_congr
  intro s _
  by_cases h : liveText (line.take offset) <+: s
  · simp [(Index_eq_zero_iff s _).2 h, List.isPrefixOf_iff_prefix.2 h]
  · have h1 : ¬ Index s (liveText (line.take offset)) = 0 :=
      fun hi => h ((Index_eq_zero_iff s _).1 hi)
    have h2 : ¬ (liveText (line.take offset)).isPrefixOf s = true :=
      fun hi => h (List.isPrefixOf_iff_prefix.1 hi)
    simp [h1, h2]

/-- Witness of C5: the line `go doc -` with the cursor at its end; `handleDoc` runs on what
follows `go doc`. -/
theorem handleDoc_suggests_options_witness :
    handleDoc (bareEnv (str "go doc -") (str "8")) 3 Globals.init ⟨str " -", 2, false⟩
        = some [str "-u ", str "-c ", str "-cmd "]
    ∧ main 3 (bareEnv (str "go doc -") (str "8"))
        = some ⟨[str "-u ", str "-c ", str "-cmd "], 0⟩ :=
  ⟨(handleDoc_suggests_options (bareEnv (str "go doc -") (str "8")) Globals.init (str " -") 2
      false 3 (by decide) (by decide) (by decide) (by decide)).trans (by decide),
   by decide⟩

/-- C6: with include-unexported off, `suggestSymbol` prints nothing, for every prefix, token
and match-case setting, when the simple name of the candidate (the text after its final
`.`) does not begin with an upper-case rune; with include-unexported on the candidate is
printed whenever the token is a literal prefix of it. -/
theorem suggestSymbol_exported_filter (U : Unicode) (g : Globals) (tokRoot tok name : GoString) :
    (g.unexported = false → U.IsUpper (DecodeRuneInString (simpleName name)).1 = false →
        suggestSymbol U g tokRoot tok name = [])
    ∧ (g.unexported = true → tok <+: name →
        suggestSymbol U g tokRoot tok name = [tokRoot ++ name ++ [32]]) := by
  rw [suggestSymbol_eq]
  constructor
  · intro h1 h2
    rw [if_pos ⟨h1, h2⟩]
  · intro h1 h2
    rw [if_neg (fun h => by rw [h1] at h; cases h.1), if_pos h2]

/-- Witness of C6: the candidate `internalHelper` with the empty token is printed only when
include-unexported is on. -/
theorem suggestSymbol_exported_filter_witness :
    suggestSymbol asciiTables ⟨[], false, false, false⟩ [] [] (str "internalHelper") = []
    ∧ suggestSymbol asciiTables ⟨[], false, true, false⟩ [] [] (str "internalHelper")
        = [str "internalHelper "] :=
  ⟨(suggestSymbol_exported_filter asciiTables ⟨[], false, false, false⟩ [] []
      (str "internalHelper")).1 rfl (by decide),
   ((suggestSymbol_exported_filter asciiTables ⟨[], false, true, false⟩ [] []
      (str "internalHelper")).2 rfl (by decide)).trans (by decide)⟩

/-- C7: for every prefix `tokRoot`, token `tok` and candidate `name` that passes the exported
filter, if `tok` is a literal prefix of `name` then `suggestSymbol` prints exactly the one
line `tokRoot + name + " "`, whether match-case is on or off. -/
theorem suggestSymbol_exact (U : Unicode) (g : Globals) (tokRoot tok name : GoString)
    (hexp : passesExported U g name) (hpre : tok <+: name) :
    suggestSymbol U g tokRoot tok name = [tokRoot ++ name ++ [32]] := by
  rw [suggestSymbol_eq, if_neg (not_filtered_of_passes U g name hexp), if_pos hpre]

/-- Witness of C7: the token `Fm` against the candidate `Fmt`, match-case on. -/
theorem suggestSymbol_exact_witness :
    suggestSymbol asciiTables ⟨[], true, false, false⟩ (str "fmt.") (str "Fm") (str "Fmt")
      = [str "fmt.Fmt "] :=
  (suggestSymbol_exact asciiTables ⟨[], true, false, false⟩ (str "fmt.") (str "Fm") (str "Fmt")
    (Or.inr (by decide)) (by decide)).trans (by decide)

/-- C8: with match-case off, for every candidate `name` that passes the exported filter and
every token `tok` of `n` runes that is not a literal prefix of `name`: if at every
position `k < n` the name has a rune and the `k`-th rune of `tok` equals it or is
lower-case and has the same `simpleFold` as it, then `suggestSymbol` prints exactly the
one line `tokRoot + tok + (name without its first n runes) + " "`. -/
theorem suggestSymbol_fold (U : Unicode) (g : Globals) (tokRoot tok name : GoString)
    (hcase : g.matchCase = false) (hexp : passesExported U g name) (hpre : ¬ tok <+: name)
    (hmatch : ∀ k : Nat, k < (runes tok).length →
      ∃ u p : Nat, (runes tok)[k]? = some u ∧ (runes name)[k]? = some p
        ∧ (u = p ∨ (U.IsLower u = true ∧ simpleFold U u = simpleFold U p))) :
    suggestSymbol U g tokRoot tok name
      = [tokRoot ++ tok ++ dropRunes (runes tok).length name ++ [32]] := by
  rw [suggestSymbol_eq, if_neg (not_filtered_of_passes U g name hexp), if_neg hpre, if_pos hcase,
    foldWalk_of_match U (runes tok) name hmatch]

/-- Witness of C8: the token `fm` against the candidate `Fmt` prints `fmt `. -/
theorem suggestSymbol_fold_witness :
    suggestSymbol asciiTables Globals.init [] (str "fm") (str "Fmt") = [str "fmt "] :=
  (suggestSymbol_fold asciiTables Globals.init [] (str "fm") (str "Fmt") rfl
    (Or.inr (by decide)) (by decide)
    (by
      intro k hk
      have hk2 : k < 2 := hk
      have h70 : simpleFold asciiTables 102 = simpleFold asciiTables 70 := by
        rw [simpleFold_unfold asciiTables 70, if_neg (by decide)]
        rfl
      rcases Nat.lt_succ_iff_lt_or_eq.1 hk2 with h | h
      · have h0 : k = 0 := by omega
        subst h0
        exact ⟨102, 70, by decide, by decide, Or.inr ⟨by decide, h70⟩⟩
      · subst h
        exact ⟨109, 109, by decide, by decide, Or.inl rfl⟩)).trans (by decide)

/-- C9: with match-case on, for every prefix, token and candidate such that the token is not
a literal prefix of the candidate, `suggestSymbol` prints nothing. -/
theorem suggestSymbol_matchCase (U : Unicode) (g : Globals) (tokRoot tok name : GoString)
    (hcase : g.matchCase = true) (hpre : ¬ tok <+: name) :
    suggestSymbol U g tokRoot tok name = [] := by
  rw [suggestSymbol_eq]
  by_cases h : g.unexported = false ∧ U.IsUpper (DecodeRuneInString (simpleName name)).1 = false
  · rw [if_pos h]
  · rw [if_neg h, if_neg hpre, if_neg (by rw [hcase]; simp)]

/-- Witness of C9: the token `Fm` against the candidate `fmt`, with include-unexported on so
that the candidate passes the filter. -/
theorem suggestSymbol_matchCase_witness :
    suggestSymbol asciiTables ⟨[], true, true, false⟩ [] (str "Fm") (str "fmt") = [] :=
  suggestSymbol_matchCase asciiTables ⟨[], true, true, false⟩ [] (str "Fm") (str "fmt") rfl
    (by decide)

/-- C10 fails on the code: the token `A\uFFFD` has two runes, the candidate `A` has one, and
with the default options `suggestSymbol` prints the line `A\uFFFD `, for all Unicode tables
in which `A` is upper-case.  At the end of the name `DecodeRuneInString` returns
`RuneError`, which the walk compares with the typed rune U+FFFD and finds equal. -/
theorem suggestSymbol_longer_token (U : Unicode) (hA : U.IsUpper 65 = true) :
    (runes (str "A\uFFFD")).length = 2 ∧ (runes (str "A")).length = 1
    ∧ suggestSymbol U Globals.init [] (str "A\uFFFD") (str "A") = [str "A\uFFFD "] := by
  refine ⟨by decide, by decide, ?_⟩
  rw [suggestSymbol_eq]
  have h1 : (DecodeRuneInString (simpleName (str "A"))).1 = 65 := by decide
  have h2 : ¬ str "A\uFFFD" <+: str "A" := by decide
  have h3 : foldWalk U (runes (str "A\uFFFD")) (str "A") = some [] := by
    have hr : runes (str "A\uFFFD") = [65, 0xFFFD] := by decide
    have hs : str "A" = [65] := by decide
    rw [hr, hs]
    simp [foldWalk, DecodeRuneInString, RuneError]
  rw [h1, hA, h3, if_neg (by simp), if_neg h2]
  rfl

/-- Witness of C10's failing input, with the tables of the ASCII letters. -/
theorem suggestSymbol_longer_token_witness :
    suggestSymbol asciiTables Globals.init [] (str "A\uFFFD") (str "A") = [str "A\uFFFD "] :=
  (suggestSymbol_longer_token asciiTables (by decide)).2.2

/-- C11: for every parsed package whose name is not `main`, `suggestPackageContents` with the
empty token and include-unexported off (whatever the two other options) returns true and
prints exactly `tokRoot + name + " "` for each declaration name whose simple name begins
with an upper-case rune, once per occurrence and in the order constants, variables,
functions, then each type followed by its methods as `Type.Method`; the other names
produce no line. -/
theorem suggestPackageContents_empty_token (E : Env) (g : Globals)
    (pkgPath tokRoot name : GoString) (pkg : DocPackage)
    (hparse : parsePackage E pkgPath = some (name, pkg)) (hname : name ≠ str "main")
    (hunexp : g.unexported = false) :
    suggestPackageContents E g pkgPath tokRoot []
      = (true, ((declNames pkg).filter
          (fun n => E.unicode.IsUpper (DecodeRuneInString (simpleName n)).1)).map
            (fun n => tokRoot ++ n ++ [32])) := by
  rw [suggestPackageContents_eq, hparse]
  simp only [hname, false_and, if_false]
  rw [← flatMap_ite_singleton]
  congr 1
  apply List.flatMap_congr
  intro n _
  exact suggestSymbol_empty_token E.unicode g tokRoot n hunexp

/-- Witness of C11: the package with the functions `Foo` and `bar` yields exactly `Foo `. -/
theorem suggestPackageContents_empty_token_witness :
    suggestPackageContents (sampleEnv [] []) Globals.init (str "/w/src/pkg") [] []
      = (true, [str "Foo "]) :=
  (suggestPackageContents_empty_token (sampleEnv [] []) Globals.init (str "/w/src/pkg") []
    (str "pkg") samplePackage (by decide) (by decide) rfl).trans (by decide)

/-- C12, as the claim states it, fails for `suggestPackages`: in the sample file system the
search root `/w/src` lists the directory `.git`, the token `.g` has the base `.g`, and
`suggestPackages` prints nothing, the directory holding neither a `.go` entry nor a
subdirectory. -/
theorem suggestPackages_skips_bare_git :
    str "/w/src" ∈ makePaths (sampleEnv [] []) (tokenRoot (str ".g"))
    ∧ str ".git" ∈ getDirs (sampleEnv [] []) (str "/w/src")
    ∧ tokenBase (str ".g") = str ".g"
    ∧ suggestPackages (sampleEnv [] []) (str ".g") = [] := by
  decide

/-- C12, amended: for every directory listing, when the base part of the token is empty
neither `suggestPackages` nor `suggestPaths` prints a candidate for a name that begins
with `.`; when the base is `.g`, a directory named `.git` in the listing is printed by
`suggestPaths`, and by `suggestPackages` exactly when, under some search root, it holds an
entry ending in `.go` (line `.git `) or a subdirectory (line `.git/`). -/
theorem hidden_entries_filtered (E : Env) :
    (∀ tok : GoString, tokenBase tok = [] → ∀ (d : GoString) (m : Nat), [46] <+: d →
        tokenRoot tok ++ d ++ [m] ∉ suggestPackages E tok
        ∧ tokenRoot tok ++ d ++ [m] ∉ (suggestPaths E tok).1)
    ∧ ∀ root : GoString, (root = [] ∨ root.getLast? = some 47) →
        (∀ fi, fi ∈ (if root = [] then E.ReadDir (str ".") else E.ReadDir root) →
            fi.Name = str ".git" → fi.IsDir = true →
            root ++ str ".git" ++ [47] ∈ (suggestPaths E (root ++ str ".g")).1)
        ∧ (root ++ str ".git" ++ [32] ∈ suggestPackages E (root ++ str ".g") ↔
            ∃ dirPath, dirPath ∈ makePaths E root ∧ str ".git" ∈ getDirs E dirPath
              ∧ isPackage E (pathJoin E [dirPath, str ".git"]) = true)
        ∧ (root ++ str ".git" ++ [47] ∈ suggestPackages E (root ++ str ".g") ↔
            ∃ dirPath, dirPath ∈ makePaths E root ∧ str ".git" ∈ getDirs E dirPath
              ∧ hasPackages E (pathJoin E [dirPath, str ".git"]) = true) := by
  constructor
  · intro tok hb d m hd
    constructor
    · intro hmem
      obtain ⟨dp, _, d1, _, hf, h⟩ := (mem_suggestPackages E tok _).1 hmem
      have hd1 : d = d1 := by
        rcases h with ⟨_, h⟩ | ⟨_, h⟩ <;> exact (line_cancel _ _ _ _ _ h).1
      subst hd1
      exact ((passesFilters_iff _ _).1 hf).2 ⟨hd, hb⟩
    · intro hmem
      obtain ⟨fi, _, hf, h⟩ := (mem_suggestPaths E tok _).1 hmem
      have hd1 : d = fi.Name := (line_cancel _ _ _ _ _ h).1
      rw [hd1] at hd
      exact ((passesFilters_iff _ _).1 hf).2 ⟨hd, hb⟩
  · intro root hroot
    have hg : (str ".g" : GoString) ≠ [] := by decide
    have hs : 47 ∉ (str ".g" : GoString) := by decide
    obtain ⟨hr, hb⟩ := tokenRoot_root_base root (str ".g") hroot hg hs
    have hpass : passesFilters (str ".g") (str ".git") = true := by decide
    refine ⟨?_, ?_, ?_⟩
    · intro fi hfi hname hdir
      rw [mem_suggestPaths, hr, hb]
      exact ⟨fi, hfi, by rw [hname]; exact hpass, by rw [hname, hdir]; rfl⟩
    · rw [mem_suggestPackages, hr, hb]
      constructor
      · rintro ⟨dp, hdp, d, hd, _, h⟩
        rcases h with ⟨hp, h⟩ | ⟨_, h⟩
        · have := (line_cancel _ _ _ _ _ h).1
          subst this
          exact ⟨dp, hdp, hd, hp⟩
        · have := (line_cancel _ _ _ _ _ h).2
          omega
      · rintro ⟨dp, hdp, hd, hp⟩
        exact ⟨dp, hdp, str ".git", hd, hpass, Or.inl ⟨hp, rfl⟩⟩
    · rw [mem_suggestPackages, hr, hb]
      constructor
      · rintro ⟨dp, hdp, d, hd, _, h⟩
        rcases h with ⟨_, h⟩ | ⟨hp, h⟩
        · have := (line_cancel _ _ _ _ _ h).2
          omega
        · have := (line_cancel _ _ _ _ _ h).1
          subst this
          exact ⟨dp, hdp, hd, hp⟩
      · rintro ⟨dp, hdp, hd, hp⟩
        exact ⟨dp, hdp, str ".git", hd, hpass, Or.inr ⟨hp, rfl⟩⟩

/-- Witness of C12, amended: in the sample file system the empty token yields no `.git`
line from either function, and the token `.g` yields `.git/` from `suggestPaths`. -/
theorem hidden_entries_filtered_witness :
    (str ".git/" ∉ suggestPackages (sampleEnv [] []) []
      ∧ str ".git/" ∉ (suggestPaths (sampleEnv [] []) []).1)
    ∧ str ".git/" ∈ (suggestPaths (sampleEnv [] []) (str ".g")).1 :=
  ⟨(hidden_entries_filtered (sampleEnv [] [])).1 [] (by decide) (str ".git") 47 (by decide),
   ((hidden_entries_filtered (sampleEnv [] [])).2 [] (Or.inl rfl)).1
      ⟨str ".git", true, false⟩ (by decide) rfl rfl⟩

/-- C13: for every root (empty or ending in `/`), every non-empty base without `/` and every
file system, each line that `suggestPackages` (respectively `suggestPaths`) prints for the
token `root + base` is `root + d + marker` for an entry name `d` that begins with `base`,
and when `d` does not begin with `.` the same function prints the line for the token
`root` too. -/
theorem narrowing_removes_candidates (E : Env) (root base : GoString)
    (hroot : root = [] ∨ root.getLast? = some 47) (hne : base ≠ []) (hbase : 47 ∉ base) :
    (∀ l, (l ∈ suggestPackages E (root ++ base) ∨ l ∈ (suggestPaths E (root ++ base)).1) →
        ∃ (d : GoString) (m : Nat), l = root ++ d ++ [m] ∧ base <+: d)
    ∧ ∀ (d : GoString) (m : Nat), ¬ [46] <+: d →
        (root ++ d ++ [m] ∈ suggestPackages E (root ++ base) →
            root ++ d ++ [m] ∈ suggestPackages E root)
        ∧ (root ++ d ++ [m] ∈ (suggestPaths E (root ++ base)).1 →
            root ++ d ++ [m] ∈ (suggestPaths E root).1) := by
  obtain ⟨hr, hb⟩ := tokenRoot_root_base root base hroot hne hbase
  obtain ⟨hr0, hb0⟩ := tokenRoot_root root hroot
  have hpass : ∀ d : GoString, ¬ [46] <+: d → passesFilters [] d = true := by
    intro d hd
    rw [passesFilters_iff]
    exact ⟨List.nil_prefix, fun h => hd h.1⟩
  refine ⟨?_, fun d m hd => ⟨?_, ?_⟩⟩
  · rintro l (hl | hl)
    · rw [mem_suggestPackages, hr, hb] at hl
      obtain ⟨_, _, d, _, hf, h⟩ := hl
      rcases h with ⟨_, h⟩ | ⟨_, h⟩
      · exact ⟨d, 32, h, ((passesFilters_iff _ _).1 hf).1⟩
      · exact ⟨d, 47, h, ((passesFilters_iff _ _).1 hf).1⟩
    · rw [mem_suggestPaths, hr, hb] at hl
      obtain ⟨fi, _, hf, h⟩ := hl
      exact ⟨fi.Name, _, h, ((passesFilters_iff _ _).1 hf).1⟩
  · intro hmem
    rw [mem_suggestPackages, hr, hb] at hmem
    rw [mem_suggestPackages, hr0, hb0]
    obtain ⟨dp, hdp, d1, hd1, _, h⟩ := hmem
    have e : d = d1 := by
      rcases h with ⟨_, h⟩ | ⟨_, h⟩ <;> exact (line_cancel _ _ _ _ _ h).1
    subst e
    exact ⟨dp, hdp, d, hd1, hpass d hd, h⟩
  · intro hmem
    rw [mem_suggestPaths, hr, hb] at hmem
    rw [mem_suggestPaths, hr0, hb0]
    obtain ⟨fi, hfi, _, h⟩ := hmem
    have e : d = fi.Name := (line_cancel _ _ _ _ _ h).1
    rw [e] at hd
    exact ⟨fi, hfi, hpass fi.Name hd, h⟩

/-- Witness of C13: in the sample file system the line `pkg ` printed for the token `p` is
printed for the empty token, and so is `main.go ` printed for the token `m`. -/
theorem narrowing_removes_candidates_witness :
    str "pkg " ∈ suggestPackages (sampleEnv [] []) []
    ∧ str "main.go " ∈ (suggestPaths (sampleEnv [] []) []).1 :=
  ⟨((narrowing_removes_candidates (sampleEnv [] []) [] (str "p") (Or.inl rfl) (by decide)
      (by decide)).2 (str "pkg") 32 (by decide)).1 (by decide),
   ((narrowing_removes_candidates (sampleEnv [] []) [] (str "m") (Or.inl rfl) (by decide)
      (by decide)).2 (str "main.go") 32 (by decide)).2 (by decide)⟩

/-- C15: for every token and file system, the output of `suggestPackages` is the
concatenation, over the search roots (each non-empty entry of GOPATH in list order, then
GOROOT) and within a root over its subdirectories in the order of the directory listing,
of the lines of each subdirectory `d` that passes the prefix and hidden filters: first
`root + d + " "` if `d` holds an entry whose name ends in `.go`, then `root + d + "/"` if
`d` has a subdirectory. -/
theorem suggestPackages_order (E : Env) (tok : GoString) :
    suggestPackages E tok
      = (((Split E.GOPATH 58).filter (fun dir => dir ≠ [])).map
            (fun dir => pathJoin E [dir, str "src", tokenRoot tok])
          ++ (if E.GOROOT ≠ [] then [pathJoin E [E.GOROOT, str "src", tokenRoot tok]] else [])).flatMap
          (fun dirPath =>
            ((getDirs E dirPath).filter (fun d => passesFilters (tokenBase tok) d)).flatMap
              (fun d =>
                (if (E.ReadDir (pathJoin E [dirPath, d])).any
                      (fun fi => (str ".go").isSuffixOf fi.Name) = true then
                    [tokenRoot tok ++ d ++ [32]]
                  else [])
                ++ (if getDirs E (pathJoin E [dirPath, d]) ≠ [] then [tokenRoot tok ++ d ++ [47]]
                    else []))) := by
  rw [suggestPackages_eq]
  unfold makePaths
  rw [SplitList_filter]
  apply List.flatMap_congr
  intro dirPath _
  apply List.flatMap_congr
  intro d _
  congr 1
  unfold hasPackages
  by_cases h : getDirs E (pathJoin E [dirPath, d]) = []
  · simp [h]
  · simp [h, List.length_pos]

/-- Witness of C15: in the sample file system the empty token yields `pkg ` and `pkg/` from
the workspace, in that order, then `fmt ` and once more `pkg ` from the Go root. -/
theorem suggestPackages_order_witness :
    suggestPackages (sampleEnv [] []) []
      = [str "pkg ", str "pkg/", str "fmt ", str "pkg "] :=
  (suggestPackages_order (sampleEnv [] []) []).trans (by decide)

/-- C14: every line the program prints, for every input, ends with one marker, `/` or a
space.  A line of `suggestSymbol` ends with a space; a line of `suggestPaths` is
`root + name` followed by `/` for a directory entry and by a space for any other entry; a
line of `suggestPackages` is `root + d` followed by a space when `d` holds a `.go` entry or
by `/` when `d` has a subdirectory. -/
theorem every_line_ends_with_marker (E : Env) :
    (∀ (fuel : Nat) (run : Run), main fuel E = some run → ∀ l, l ∈ run.stdout → EndsWithMarker l)
    ∧ (∀ (g : Globals) (tokRoot tok name l : GoString),
        l ∈ suggestSymbol E.unicode g tokRoot tok name → ∃ text : GoString, l = text ++ [32])
    ∧ (∀ tok l : GoString, l ∈ (suggestPaths E tok).1 →
        ∃ fi, fi ∈ (if tokenRoot tok = [] then E.ReadDir (str ".") else E.ReadDir (tokenRoot tok))
          ∧ l = tokenRoot tok ++ fi.Name ++ [if fi.IsDir = true then 47 else 32])
    ∧ (∀ tok l : GoString, l ∈ suggestPackages E tok →
        ∃ dirPath, dirPath ∈ makePaths E (tokenRoot tok) ∧ ∃ d, d ∈ getDirs E dirPath
          ∧ ((isPackage E (pathJoin E [dirPath, d]) = true ∧ l = tokenRoot tok ++ d ++ [32])
            ∨ (hasPackages E (pathJoin E [dirPath, d]) = true
                ∧ l = tokenRoot tok ++ d ++ [47]))) := by
  refine ⟨?_, ?_, ?_, ?_⟩
  · intro fuel run h l hl
    rcases main_run fuel E run h with ⟨_, hr⟩ | ⟨_, _, live, _, _, _, hlines⟩
    · rw [hr] at hl
      cases hl
    · obtain ⟨rest, m, hm, hmk⟩ := hlines l hl
      refine ⟨live ++ rest, ?_⟩
      rcases hmk with rfl | rfl
      · exact Or.inl hm
      · exact Or.inr hm
  · intro g tokRoot tok name l hl
    obtain ⟨rest, hr⟩ := suggestSymbol_line _ _ _ _ _ _ hl
    exact ⟨_, hr⟩
  · intro tok l hl
    obtain ⟨fi, hfi, _, h⟩ := (mem_suggestPaths E tok l).1 hl
    exact ⟨fi, hfi, h⟩
  · intro tok l hl
    obtain ⟨dp, hdp, d, hd, _, h⟩ := (mem_suggestPackages E tok l).1 hl
    exact ⟨dp, hdp, d, hd, h⟩

/-- Witness of C14: the line `go build p` with the cursor at its end, in the sample file
system. -/
theorem every_line_ends_with_marker_witness :
    ∀ l, l ∈ [str "pkg ", str "pkg/", str "pkg "] → EndsWithMarker l :=
  (every_line_ends_with_marker (sampleEnv (str "go build p") (str "10"))).1 5
    ⟨[str "pkg ", str "pkg/", str "pkg "], 0⟩ (by decide)

/-- C16: the loop of `handleDoc` over the search roots prints the symbol candidates of the
first root whose directory parses to a single package that is not named `main` (or is, with
include-entry-point on), whatever the later roots hold and even when that package has no
matching symbol, and prints nothing when no root qualifies.  With one positional argument
the loop is all that `handleDoc` runs for the token under the cursor; for a token
`<package>.<symbol>` it runs last, on the package part. -/
theorem first_qualifying_root_wins (E : Env) (g : Globals) :
    (∀ (tokRoot tok : GoString) (pre : List GoString) (p : GoString) (post : List GoString)
        (name : GoString) (pkg : DocPackage),
        (∀ q, q ∈ pre → ¬ Qualifies E g q) → parsePackage E p = some (name, pkg) →
        (name = str "main" → g.showCmd = true) →
        firstPackageContents E g tokRoot tok (pre ++ p :: post)
          = (declNames pkg).flatMap (suggestSymbol E.unicode g tokRoot tok))
    ∧ (∀ (tokRoot tok : GoString) (paths : List GoString),
        (∀ q, q ∈ paths → ¬ Qualifies E g q) → firstPackageContents E g tokRoot tok paths = [])
    ∧ (∀ (a tok : GoString), g.args = [a] → ¬ str "-" <+: tok →
        docLive E g tok = firstPackageContents E g [] tok (makePaths E a))
    ∧ (∀ tok : GoString, g.args = [] → ¬ str "-" <+: tok →
        0 < Index (pathSplit tok).2 (str ".") →
        ∃ before : List GoString, docLive E g tok = before
          ++ firstPackageContents E g
              (tok.take ((Index (pathSplit tok).2 (str ".") + (pathSplit tok).1.length).toNat + 1))
              (tok.drop ((Index (pathSplit tok).2 (str ".") + (pathSplit tok).1.length).toNat + 1))
              (makePaths E
                (tok.take (Index (pathSplit tok).2 (str ".") + (pathSplit tok).1.length).toNat))) := by
  refine ⟨?_, ?_, ?_, ?_⟩
  · intro tokRoot tok pre p post name pkg hpre hparse hmain
    rw [firstPackageContents_of_first E g tokRoot tok pre p post hpre ⟨name, pkg, hparse, hmain⟩,
      suggestPackageContents_eq, hparse]
    simp only
    rw [if_neg]
    rintro ⟨h1, h2⟩
    have := hmain h1
    rw [h2] at this
    cases this
  · intro tokRoot tok paths h
    exact firstPackageContents_of_none E g tokRoot tok paths h
  · intro a tok ha hdash
    have hi : ¬ Index tok (str "-") = 0 := fun h => hdash ((Index_eq_zero_iff _ _).1 h)
    unfold docLive
    rw [if_neg hi, ha]
    rfl
  · intro tok ha hdash hidx
    have hi : ¬ Index tok (str "-") = 0 := fun h => hdash ((Index_eq_zero_iff _ _).1 h)
    have hlen : tok.length > 0 := by
      cases tok with
      | nil => exact absurd hidx (by decide)
      | cons c t => simp
    unfold docLive
    rw [if_neg hi, ha]
    simp only [List.length_nil]
    rw [if_pos (show tok.length > 0 ∧ Index (pathSplit tok).2 (str ".") > 0 from ⟨hlen, hidx⟩)]
    exact ⟨_, rfl⟩

/-- Witness of C16: in the sample file system both search roots hold a package `pkg`; the
candidates for the token `F` are those of the workspace (`Foo`), not of the Go root
(`Far`). -/
theorem first_qualifying_root_wins_witness :
    firstPackageContents (sampleEnv [] []) Globals.init [] (str "F")
        ([] ++ str "/w/src/pkg" :: [str "/r/src/pkg"]) = [str "Foo "]
    ∧ main 5 (sampleEnv (str "go doc pkg F") (str "12")) = some ⟨[str "Foo "], 0⟩ :=
  ⟨((first_qualifying_root_wins (sampleEnv [] []) Globals.init).1 [] (str "F") []
      (str "/w/src/pkg") [str "/r/src/pkg"] (str "pkg") samplePackage
      (fun _ hq => by cases hq) (by decide) (by decide)).trans (by decide),
   by decide⟩

/-- C19, as the claim states it, fails: on the line `go doc` with the cursor at offset 2 the
token under the cursor, as typed, is `go`; the program prints the 16 tools, and none of
the lines begins with `go`. -/
theorem main_completes_empty_token_in_command :
    liveText ((str "go doc").take 2) = str "go"
    ∧ nextUntilLive 7 ⟨str "go doc", 2, false⟩ = some ([], str "go")
    ∧ main 0 (bareEnv (str "go doc") (str "2")) = some ⟨tools.map (fun tool => tool ++ [32]), 0⟩
    ∧ ∀ l, l ∈ tools.map (fun tool => tool ++ [32]) → ¬ str "go" <+: l := by
  decide

/-- C19, amended: when the cursor lies beyond the command word `go` (offset greater than 2),
every line the program prints, in every mode, begins with the token under the cursor
exactly as typed, which is the text of the line after the last space before the cursor;
when the cursor lies inside the command word, `newTokenizer` discards the word and the
program prints every tool.  A line of `suggestSymbol`, in the exact-prefix and in the
fold-case path, begins with `tokRoot + tok`, and a line of the `else` branch of
`handleDoc` with its token, which for `<package>.<symbol>` is `tokRoot + tok`. -/
theorem every_line_begins_with_live_token (E : Env) :
    (∀ (fuel : Nat) (run : Run) (p : Int), Atoi E.COMP_POINT = some p → 2 < p →
        E.COMP_LINE.length < 9223372036854775808 → main fuel E = some run →
        ∀ l, l ∈ run.stdout → liveText (E.COMP_LINE.take p.toNat) <+: l)
    ∧ (∀ (fuel : Nat) (t : tokenizer) (p : Int), newTokenizer E = some t →
        Atoi E.COMP_POINT = some p → p ≤ 2 →
        main fuel E = some ⟨tools.map (fun tool => tool ++ [32]), 0⟩)
    ∧ (∀ (g : Globals) (tokRoot tok name l : GoString),
        l ∈ suggestSymbol E.unicode g tokRoot tok name → tokRoot ++ tok <+: l)
    ∧ (∀ (g : Globals) (tok l : GoString), l ∈ docLive E g tok → tok <+: l) := by
  refine ⟨?_, ?_, ?_, ?_⟩
  · intro fuel run p hA hp hlen h l hl
    rcases main_run fuel E run h with ⟨_, hr⟩ | ⟨t, cs, live, hnew, hlive, _, hlines⟩
    · rw [hr] at hl
      cases hl
    · have htyped := live_token_as_typed E t p (fuel + 1) cs live hnew hA hp hlen hlive
      obtain ⟨rest, m, hm, _⟩ := hlines l hl
      rw [← htyped]
      exact ⟨rest ++ [m], by rw [hm, List.append_assoc]⟩
  · intro fuel t p hnew hA hp
    exact (main_cursor_in_command E t p fuel hnew hA hp).2
  · intro g tokRoot tok name l hl
    obtain ⟨rest, hr⟩ := suggestSymbol_line _ _ _ _ _ _ hl
    exact ⟨rest ++ [32], by rw [hr]; simp⟩
  · intro g tok l hl
    obtain ⟨rest, m, hm, _⟩ := docLive_line E g tok l hl
    exact ⟨rest ++ [m], by rw [hm, List.append_assoc]⟩

/-- Witness of C19, amended: the line `go doc pkg.F` with the cursor at its end, in the
sample file system, prints `pkg.Foo `, which begins with the typed token `pkg.F`; the line
`go build p` prints lines that begin with `p`. -/
theorem every_line_begins_with_live_token_witness :
    (∀ l, l ∈ [str "pkg.Foo "] → str "pkg.F" <+: l)
    ∧ ∀ l, l ∈ [str "pkg ", str "pkg/", str "pkg "] → str "p" <+: l :=
  ⟨(every_line_begins_with_live_token (sampleEnv (str "go doc pkg.F") (str "12"))).1 5
      ⟨[str "pkg.Foo "], 0⟩ 12 (by decide) (by decide) (by decide) (by decide),
   (every_line_begins_with_live_token (sampleEnv (str "go build p") (str "10"))).1 5
      ⟨[str "pkg ", str "pkg/", str "pkg "], 0⟩ 10 (by decide) (by decide) (by decide)
      (by decide)⟩

/-- C17: assuming `unicode.SimpleFold` maps each rune to the next larger rune of its fold
cycle and the largest rune of a cycle to the smallest, `simpleFold` returns the same
rune for every member of a cycle and different runes for different cycles: for all runes
`u` and `p`, `simpleFold(u) == simpleFold(p)` exactly when `u` and `p` lie in the same
cycle. -/
theorem simpleFold_eq_iff_same_cycle (U : Unicode) (C : Nat → Nat → Prop)
    (hC : FoldCycles U C) (u p : Nat) (hu : u < 2147483648) (hp : p < 2147483648) :
    simpleFold U u = simpleFold U p ↔ C u p := by
  obtain ⟨hu1, hu2⟩ := simpleFold_least U C hC _ u (Nat.le_refl _) hu
  obtain ⟨hp1, hp2⟩ := simpleFold_least U C hC _ p (Nat.le_refl _) hp
  constructor
  · intro h
    rw [h] at hu1
    exact hC.trans _ _ _ hu1 (hC.symm _ _ hp1)
  · intro h
    have h1 := hu2 _ (hC.trans _ _ _ h hp1)
    have h2 := hp2 _ (hC.trans _ _ _ (hC.symm _ _ h) hu1)
    omega

/-- Witness of C17: with the tables of the ASCII letters, `k`, `K` and the Kelvin sign
U+212A have the same `simpleFold`, and `k` and `s` have not. -/
theorem simpleFold_eq_iff_same_cycle_witness :
    simpleFold asciiTables 107 = simpleFold asciiTables 75
    ∧ simpleFold asciiTables 8490 = simpleFold asciiTables 75
    ∧ simpleFold asciiTables 107 ≠ simpleFold asciiTables 115 :=
  ⟨(simpleFold_eq_iff_same_cycle asciiTables _ asciiTables_cycles 107 75 (by decide)
      (by decide)).2 (by decide),
   (simpleFold_eq_iff_same_cycle asciiTables _ asciiTables_cycles 8490 75 (by decide)
      (by decide)).2 (by decide),
   fun h => absurd ((simpleFold_eq_iff_same_cycle asciiTables _ asciiTables_cycles 107 115
      (by decide) (by decide)).1 h) (by decide)⟩

/-- C18, as the claim states it, fails: with the tables of the ASCII letters the cycle of
`a` is `A`, `a`, and `simpleFold` maps `a` to `A`, which is less than `a`. -/
theorem simpleFold_below_argument :
    asciiTables.SimpleFold 97 = 65 ∧ asciiTables.SimpleFold 65 = 97
    ∧ simpleFold asciiTables 97 = 65 ∧ ¬ 97 ≤ simpleFold asciiTables 97 := by
  have h : simpleFold asciiTables 97 = 65 := by
    rw [simpleFold_unfold, if_pos (by decide)]
    rfl
  refine ⟨rfl, rfl, h, ?_⟩
  rw [h]
  decide

/-- C18, amended: under the assumption of C17, for every rune `r` the rune `simpleFold(r)`
is the smallest member of the fold cycle of `r`; it is never greater than `r`. -/
theorem simpleFold_is_least_of_cycle (U : Unicode) (C : Nat → Nat → Prop)
    (hC : FoldCycles U C) (r : Nat) (hr : r < 2147483648) :
    C r (simpleFold U r) ∧ (∀ s, C r s → simpleFold U r ≤ s) ∧ simpleFold U r ≤ r := by
  obtain ⟨h1, h2⟩ := simpleFold_least U C hC _ r (Nat.le_refl _) hr
  exact ⟨h1, h2, h2 r (hC.refl r)⟩

/-- Witness of C18, amended: with the tables of the ASCII letters `simpleFold` maps the
Kelvin sign to a rune of its cycle that is at most `K`. -/
theorem simpleFold_is_least_of_cycle_witness :
    asciiClass 8490 = asciiClass (simpleFold asciiTables 8490)
    ∧ simpleFold asciiTables 8490 ≤ 75 :=
  ⟨(simpleFold_is_least_of_cycle asciiTables _ asciiTables_cycles 8490 (by decide)).1,
   (simpleFold_is_least_of_cycle asciiTables _ asciiTables_cycles 8490 (by decide)).2.1 75
      (by decide)⟩

/-- C20, as the claim states it, fails: the state with the line ` a` and the least 64-bit
integer as cursor has its cursor below the length of the line; the subtraction of the one
leading space wraps around, `Next` returns `a` with `old = true` and leaves a cursor far
beyond the empty rest; from there `Next` returns the empty token with `old = true` and the
same state, and the token loop never reaches the live token. -/
theorem Next_wraps_at_least_int :
    (-9223372036854775808 : Int) ≤ ((str " a").length : Int)
    ∧ tokenizer.Next ⟨str " a", -9223372036854775808, false⟩
        = (str "a", true, ⟨[], 9223372036854775806, false⟩)
    ∧ ¬ (9223372036854775806 : Int) ≤ (([] : GoString).length : Int)
    ∧ tokenizer.Next ⟨[], 9223372036854775806, false⟩
        = ([], true, ⟨[], 9223372036854775806, false⟩)
    ∧ ∀ fuel : Nat, nextUntilLive fuel ⟨str " a", -9223372036854775808, false⟩ = none := by
  have h1 : tokenizer.Next ⟨str " a", -9223372036854775808, false⟩
      = (str "a", true, ⟨[], 9223372036854775806, false⟩) := by decide
  refine ⟨by decide, h1, by decide, by decide, fun fuel => ?_⟩
  cases fuel with
  | zero => rfl
  | succ n =>
    unfold nextUntilLive
    rw [h1]
    simp [nextUntilLive_stuck 9223372036854775806 false (by decide) (by decide) n]

/-- C20, amended: for every tokenizer state whose cursor is at most the length of its
remaining line and not within that length of the least 64-bit integer, `Next` preserves
these bounds, every token it returns with `old = true` is non-empty and strictly shortens
the remaining line, and the loops of `handleDefault` and `handleDoc` end, reaching the live
token after at most as many calls of `Next` as the line has tokens, plus one.  Every
tokenizer that `newTokenizer` returns has a cursor between 0 and the length of its line,
and `main` ends on it. -/
theorem token_loops_terminate (t : tokenizer) (hb : InBounds t) :
    InBounds (tokenizer.Next t).2.2
    ∧ ((tokenizer.Next t).2.1 = true →
        (tokenizer.Next t).1 ≠ [] ∧ (tokenizer.Next t).2.2.line.length < t.line.length)
    ∧ (∀ fuel : Nat, tokenCount t.line < fuel →
        ∃ cs live, nextUntilLive fuel t = some (cs, live) ∧ cs.length + 1 ≤ tokenCount t.line + 1
          ∧ (∀ E : Env, handleDefault E fuel t
                = some (suggestPackages E live ++ (suggestPaths E live).1))
          ∧ ∀ (E : Env) (g : Globals), handleDoc E fuel g t
                = some (docLive E (cs.foldl docOption g) live))
    ∧ ∀ (E : Env) (t1 : tokenizer), newTokenizer E = some t1 →
        E.COMP_LINE.length < 9223372036854775808 →
        0 ≤ t1.point ∧ InBounds t1
          ∧ ∀ fuel : Nat, tokenCount t1.line ≤ fuel → ∃ run, main fuel E = some run := by
  obtain ⟨h1, h2⟩ := Next_inBounds t hb
  refine ⟨h1, fun hold => ⟨(h2 hold).1, (h2 hold).2.1⟩, ?_, ?_⟩
  · intro fuel hf
    obtain ⟨cs, live, hc, hlen⟩ := nextUntilLive_terminates fuel t hb hf
    exact ⟨cs, live, hc, by omega, fun E => handleDefault_eq E fuel t cs live hc,
      fun E g => handleDoc_eq E fuel g t cs live hc⟩
  · intro E t1 hnew hlen
    obtain ⟨h3, h4⟩ := newTokenizer_inBounds E t1 hnew hlen
    exact ⟨h3, h4, fun fuel hf => main_terminates E t1 hnew h4 fuel hf⟩

/-- Witness of C20, amended: on the rest ` doc fm` of the line `go doc fm`, with the cursor
at its end, `Next` returns the token `doc` and leaves a shorter line, and the loop of
`handleDefault` ends within 3 calls. -/
theorem token_loops_terminate_witness :
    ((tokenizer.Next ⟨str " doc fm", 7, false⟩).2.1 = true →
        (tokenizer.Next ⟨str " doc fm", 7, false⟩).1 ≠ []
        ∧ (tokenizer.Next ⟨str " doc fm", 7, false⟩).2.2.line.length < (str " doc fm").length)
    ∧ ∃ cs live, nextUntilLive 3 ⟨str " doc fm", 7, false⟩ = some (cs, live)
        ∧ cs.length + 1 ≤ tokenCount (str " doc fm") + 1
        ∧ (∀ E : Env, handleDefault E 3 ⟨str " doc fm", 7, false⟩
              = some (suggestPackages E live ++ (suggestPaths E live).1))
        ∧ ∀ (E : Env) (g : Globals), handleDoc E 3 g ⟨str " doc fm", 7, false⟩
              = some (docLive E (cs.foldl docOption g) live) :=
  ⟨(token_loops_terminate ⟨str " doc fm", 7, false⟩
      ⟨by decide, by decide, by decide⟩).2.1,
   (token_loops_terminate ⟨str " doc fm", 7, false⟩
      ⟨by decide, by decide, by decide⟩).2.2.1 3 (by decide)⟩

end Gotab
